import Mathlib

/-!
Shallow embedding of `rltime/models/torch/modules/lstm.py`: the recurrent
state controller of the repository (the `LSTM` module's `forward` unroll
with episode-reset masking and multi-sample expand/reduce reconciliation,
and the cached-state accessor `get_state`).

Tensors are modelled as lists of rows of rationals.  The differentiable
`torch.nn.LSTMCell` is an opaque per-row function parameter (torch's cell
acts on each batch row independently).  Python `assert` failures and
runtime shape errors (division by zero, invalid `view`) are modelled as
`none`.
-/

abbrev Row := List ℚ

abbrev Mat := List Row

/-- The opaque recurrent cell: maps an input row and an `(h, c)` row pair to
a new `(h, c)` row pair.  `torch.nn.LSTMCell` applies such a function to each
batch row independently. -/
abbrev CellFn := Row → Row × Row → Row × Row

/-- The `multi_sample_merge_mode` option of the `LSTM` constructor
(`assert(multi_sample_merge_mode in ['outer', 'inner'])`). -/
inductive MergeMode where
  | outer
  | inner
  deriving DecidableEq, Repr, Inhabited

/-- Modelled from the spec: `repeat_interleave` (imported in the source from
`rltime/models/torch/utils.py`, which is not among the sources) duplicates
each element contiguously `k` times along the batch axis (element `i` of the
input becomes elements `i*k .. (i+1)*k-1` of the output), i.e. interleaved
repetition, not block tiling. -/
def repeat_interleave (k : ℕ) : List α → List α
  | [] => []
  | a :: l => List.replicate k a ++ repeat_interleave k l

/-- Fuel-driven worker for `chunksOf` (fuel bounds the number of produced
chunks; `chunksOf` supplies `l.length`, which is enough whenever `0 < k`). -/
def chunksOfFuel (k : ℕ) : ℕ → List α → List (List α)
  | _, [] => []
  | 0, _ :: _ => []
  | fuel + 1, a :: l => (a :: l).take k :: chunksOfFuel k fuel ((a :: l).drop k)

/-- Split a list into consecutive chunks of size `k` (the row grouping
performed by torch's `view(timesteps, batch_size, ...)` reshapes and by
`view(-1, multi_sample, units)`). -/
def chunksOf (k : ℕ) (l : List α) : List (List α) :=
  chunksOfFuel k l.length l

/-- Pointwise sum of two rows (torch elementwise `+`, used to model `mean`). -/
def addRow (r s : Row) : Row := List.zipWith (· + ·) r s

/-- Pointwise arithmetic mean of a group of rows: `mean` over axis 1 of a
`view(-1, multi_sample, units)` reshape acts on each group of consecutive
rows this way. -/
def meanRows : Mat → Row
  | [] => []
  | r :: rs => (rs.foldl addRow r).map (fun v => v / ((rs.length : ℚ) + 1))

/-- `state.view(-1, k, units).mean(1)`: group consecutive rows in blocks of
`k` and average each block. -/
def reduceMean (k : ℕ) (m : Mat) : Mat := (chunksOf k m).map meanRows

/-- Episode reset masking (`hx = hx * (1 - initial)` with `initial`
broadcast over the feature axis): row `j` is multiplied by
`1 - initials[j]`. -/
def applyReset (inits : Row) (m : Mat) : Mat :=
  List.zipWith (fun i r => r.map (fun v => v * (1 - i))) inits m

/-- One batched invocation of the opaque cell,
`hx, cx = self.lstm_cell(x, (hx, cx))`: the cell function applied to each
(input row, state row pair) independently. -/
def cellBatch (cell : CellFn) (x : Mat) (h c : Mat) : Mat × Mat :=
  let hc := List.zipWith (fun xr p => cell xr p) x (h.zip c)
  (hc.map Prod.fst, hc.map Prod.snd)

/-- Record of everything one iteration of the timestep loop computes:
the carried state entering the iteration (`hIn`, `cIn`), the state after the
multi-sample expansion decision (`hExp`, `cExp`), the state after episode
reset masking — i.e. the state actually fed into the cell (`hMask`,
`cMask`), the cell outputs (`hCell`, `cCell`, of which `hCell` is appended
to the output accumulator), and the state after the reduce decision carried
to the next iteration (`hOut`, `cOut`).  `idx` is the `enumerate` index and
`inits` the timestep's slice of the (possibly repeated) initials. -/
structure StepTrace where
  idx : ℕ
  inits : Row
  hIn : Mat
  cIn : Mat
  hExp : Mat
  cExp : Mat
  hMask : Mat
  cMask : Mat
  hCell : Mat
  cCell : Mat
  hOut : Mat
  cOut : Mat
  deriving DecidableEq, Repr, Inhabited

/-- The body of the timestep loop of `LSTM.forward` (source lines 84-116):
optional interleaved expansion of the carried state, episode reset masking,
the cell invocation, and optional mean-reduction of the state. -/
def forwardStep (cell : CellFn) (mode : MergeMode) (ms ts i : ℕ)
    (xi : Mat) (ini : Row) (h c : Mat) : StepTrace :=
  let hE := if 1 < ms ∧ (i = 0 ∨ mode = MergeMode.inner)
    then repeat_interleave ms h else h
  let cE := if 1 < ms ∧ (i = 0 ∨ mode = MergeMode.inner)
    then repeat_interleave ms c else c
  let hM := applyReset ini hE
  let cM := applyReset ini cE
  let hcC := cellBatch cell xi hM cM
  let hO := if 1 < ms ∧ (i = ts - 1 ∨ mode = MergeMode.inner)
    then reduceMean ms hcC.1 else hcC.1
  let cO := if 1 < ms ∧ (i = ts - 1 ∨ mode = MergeMode.inner)
    then reduceMean ms hcC.2 else hcC.2
  ⟨i, ini, h, c, hE, cE, hM, cM, hcC.1, hcC.2, hO, cO⟩

/-- The timestep loop of `LSTM.forward`
(`for i, (x, initial) in enumerate(zip(x, initials)): ...`), instrumented to
return the full per-iteration trace.  `i` is the current `enumerate`
index. -/
def forwardLoop (cell : CellFn) (mode : MergeMode) (ms ts : ℕ) :
    ℕ → List (Mat × Row) → Mat → Mat → List StepTrace
  | _, [], _, _ => []
  | i, (xi, ini) :: rest, h, c =>
    let st := forwardStep cell mode ms ts i xi ini h c
    st :: forwardLoop cell mode ms ts (i + 1) rest st.hOut st.cOut

/-- The state left in `hx, cx` when the loop finishes (the loop variables
after the last iteration; the loop's entry state if no iteration ran). -/
def finalOf (h c : Mat) (tr : List StepTrace) : Mat × Mat :=
  match tr.getLast? with
  | none => (h, c)
  | some st => (st.hOut, st.cOut)

/-- Result of one `forward` call: the iteration trace, the concatenated
output `torch.cat(out)`, and the final `(hx, cx)` stored into
`self.last_state`. -/
structure ForwardRun where
  trace : List StepTrace
  out : Mat
  hFinal : Mat
  cFinal : Mat
  deriving DecidableEq, Repr, Inhabited

/-- The shape preconditions of `LSTM.forward`: the explicit `assert`s of
source lines 53-58 and 77, the implicit validity conditions of the `view`
reshapes (lines 67-73), and the Python division-by-zero errors that lines
59-67 raise when `hx` is empty, `timesteps` is zero, or the detected
`multi_sample` is zero.  (The `hx`/`cx` view checks are stated on row
counts, which matches torch's element-count condition whenever
`num_units > 0`; the `initials` view of line 80 is always valid once these
hold.) -/
def forwardChecks (num_units : ℕ) (x hx cx : Mat) (initials : Row)
    (timesteps : ℕ) : Bool :=
  hx.all (fun r => r.length == num_units) &&
  cx.all (fun r => r.length == num_units) &&
  decide (0 < hx.length) &&
  (x.length % hx.length == 0) &&
  decide (0 < timesteps) &&
  (x.length % timesteps == 0) &&
  decide (0 < x.length / hx.length) &&
  (hx.length == timesteps * ((x.length / timesteps) / (x.length / hx.length))) &&
  (cx.length == timesteps * ((x.length / timesteps) / (x.length / hx.length))) &&
  (initials.length == ((x.length / timesteps) * timesteps) / (x.length / hx.length))

/-- The computation of `LSTM.forward` (source lines 50-122), assuming the
checks pass: detect `multi_sample` and `batch_size`, keep only the
timestep-0 slice of the supplied state, repeat the initials for
multi-sample batches, regroup rows by timestep, run the loop, and
concatenate the per-timestep outputs. -/
def forwardCore (cell : CellFn) (mode : MergeMode) (x hx cx : Mat)
    (initials : Row) (timesteps : ℕ) : ForwardRun :=
  let ms := x.length / hx.length
  let bs := x.length / timesteps
  let bs2 := bs / ms
  let hx0 := hx.take bs2
  let cx0 := cx.take bs2
  let inits2 := if 1 < ms then repeat_interleave ms initials else initials
  let ps := (chunksOf bs x).zip (chunksOf bs inits2)
  let tr := forwardLoop cell mode ms timesteps 0 ps hx0 cx0
  let fin := finalOf hx0 cx0 tr
  ⟨tr, (tr.map StepTrace.hCell).flatten, fin.1, fin.2⟩

/-- `LSTM.forward` as a function of the configuration (merge mode and
`num_units`), the opaque cell and the call arguments; `none` models a
Python assertion/shape failure. -/
def forwardRun (cell : CellFn) (mode : MergeMode) (num_units : ℕ)
    (x hx cx : Mat) (initials : Row) (timesteps : ℕ) : Option ForwardRun :=
  if forwardChecks num_units x hx cx initials timesteps then
    some (forwardCore cell mode x hx cx initials timesteps)
  else none

/-- The `LSTM` module's mutable configuration and state: `num_units`,
`multi_sample_merge_mode` (validated at construction) and the
`last_state` cache (`None` until first use). -/
structure LSTM where
  num_units : ℕ
  multi_sample_merge_mode : MergeMode
  last_state : Option (Mat × Mat)
  deriving DecidableEq, Repr, Inhabited

/-- The `forward` method: run the unroll and store the final `(hx, cx)` in
`self.last_state` (source line 120), returning the concatenated output and
the updated module. -/
def LSTM.forward (self : LSTM) (cell : CellFn) (x hx cx : Mat)
    (initials : Row) (timesteps : ℕ) : Option (Mat × LSTM) :=
  (forwardRun cell self.multi_sample_merge_mode self.num_units
      x hx cx initials timesteps).map
    fun fr => (fr.out, { self with last_state := some (fr.hFinal, fr.cFinal) })

/-- The dictionary returned by `LSTM.get_state`: the masked cached state
and the float-cast initials. -/
structure StateOut where
  hx : Mat
  cx : Mat
  initials : Row
  deriving DecidableEq, Repr, Inhabited

/-- Numpy's broadcast of `state * mask` on the batch axis, where `mask` has
shape `(len inits, 1)`: valid when the row counts agree or either is 1;
any other combination is a numpy broadcasting error (`none`). -/
def npBroadcastMask (inits : Row) (m : Mat) : Option Mat :=
  if inits.length = m.length then
    some (applyReset inits m)
  else if m.length = 1 then
    some (inits.map (fun i => (m.headD []).map (fun v => v * (1 - i))))
  else if inits.length = 1 then
    some (m.map (fun r => r.map (fun v => v * (1 - inits.headD 0))))
  else none

/-- The lazy-initialization step of `get_state` (source lines 144-150):
on the first-ever call the cache must be all-initial (`assert`, modelled as
`none`) and is created as zero vectors of shape
`[batch_size, num_units]`; otherwise the cached pair is used. -/
def get_state_seed (m : LSTM) (initials : List Bool) : Option (Mat × Mat) :=
  match m.last_state with
  | none =>
    if initials.all id then
      some (List.replicate initials.length (List.replicate m.num_units 0),
            List.replicate initials.length (List.replicate m.num_units 0))
    else none
  | some s => some s

/-- The `get_state` method (source lines 131-161): cast the boolean
initials to floats, lazily create a zero cache on first use (asserting all
initials are set), zero the rows flagged initial, store the masked state
back into the cache, assert the row counts, and return the state.  `none`
models an assertion or broadcasting failure. -/
def LSTM.get_state (self : LSTM) (initials : List Bool) :
    Option (StateOut × LSTM) :=
  let inits : Row := initials.map (fun b => if b then (1 : ℚ) else 0)
  let batch_size := initials.length
  match get_state_seed self initials with
  | none => none
  | some hc =>
    match npBroadcastMask inits hc.1, npBroadcastMask inits hc.2 with
    | some h2, some c2 =>
      if h2.length = batch_size ∧ c2.length = batch_size then
        some (⟨h2, c2, inits⟩, { self with last_state := some (h2, c2) })
      else none
    | _, _ => none

/-! ### Basic lemmas about the list-level helpers -/

/-! ### Concrete fixtures used by the per-claim witnesses -/

/-- The row count of the carried state entering loop iteration `i`: the
logical-sequence count except mid-sequence in `outer` mode with a genuine
multi-sample batch, where the carried state stays expanded. -/
def expectedLen (ms : ℕ) (mode : MergeMode) (bs2 i : ℕ) : ℕ :=
  if 1 < ms ∧ mode = MergeMode.outer ∧ i ≠ 0 then ms * bs2 else bs2

def w1cell : CellFn := fun xr _ => (xr, xr)

def w1fr : ForwardRun :=
  forwardCore w1cell MergeMode.inner [[1], [2]] [[5], [6]] [[7], [8]] [1, 1] 2

def w2cell : CellFn := fun xr _ => (xr, xr)

def w2fr : ForwardRun :=
  forwardCore w2cell MergeMode.inner [[1], [2], [3], [4]] [[5], [6]]
    [[7], [8]] [1, 0] 2

def w3cell : CellFn := fun xr _ => (xr, xr)

def w3fr : ForwardRun :=
  forwardCore w3cell MergeMode.outer [[1], [2], [3], [4]] [[5], [6]]
    [[7], [8]] [1, 0] 2

def w6cell : CellFn := fun xr _ => (xr, xr)

def w6fr : ForwardRun :=
  forwardCore w6cell MergeMode.inner
    [[1, 0], [2, 0], [3, 0], [4, 0], [5, 0], [6, 0]] [[0, 0], [0, 0]]
    [[0, 0], [0, 0]] [1, 0] 2

def w7cell : CellFn := fun xr _ => (xr, xr)

def w5cell : CellFn := fun xr p => (xr, p.1)

/-- Zero state of shape `[n, u0]` (`torch.zeros((batch_size, num_units))`),
used to state the lazy-initialization claims. -/
def zeroState (n u0 : ℕ) : Mat := List.replicate n (List.replicate u0 0)

def w9m : LSTM := ⟨2, MergeMode.inner, none⟩

def w10m : LSTM := ⟨1, MergeMode.inner, some ([[5]], [[7]])⟩

def w10r : StateOut :=
  ((w10m.get_state [true]).getD (⟨[], [], []⟩, w10m)).1

def w10m' : LSTM :=
  ((w10m.get_state [true]).getD (⟨[], [], []⟩, w10m)).2

def w4cell : CellFn := fun xr p => (xr, p.1)

def w4m : LSTM := ⟨1, MergeMode.inner, none⟩

def w4m' : LSTM :=
  ((w4m.forward w4cell [[1]] [[0]] [[0]] [1] 1).getD ([], w4m)).2

def w4h : Mat := (w4m'.last_state.getD ([], [])).1

def w4c : Mat := (w4m'.last_state.getD ([], [])).2

theorem repeat_interleave_nil (k : ℕ) :
    repeat_interleave k ([] : List α) = [] := rfl

theorem repeat_interleave_cons (k : ℕ) (a : α) (l : List α) :
    repeat_interleave k (a :: l) =
      List.replicate k a ++ repeat_interleave k l := rfl

theorem repeat_interleave_length (k : ℕ) (l : List α) :
    (repeat_interleave k l).length = k * l.length := by
  induction l with
  | nil => simp [repeat_interleave]
  | cons a l ih =>
    simp [repeat_interleave, ih, Nat.mul_succ, Nat.add_comm]

theorem chunksOfFuel_congr {k : ℕ} (hk : 0 < k) :
    ∀ (f1 : ℕ) (l : List α) (f2 : ℕ), l.length ≤ f1 → l.length ≤ f2 →
      chunksOfFuel k f1 l = chunksOfFuel k f2 l := by
  intro f1
  induction f1 with
  | zero =>
    intro l f2 h1 _
    have : l = [] := List.eq_nil_of_length_eq_zero (Nat.le_zero.mp h1)
    subst this
    cases f2 <;> rfl
  | succ f1 ih =>
    intro l f2 h1 h2
    cases l with
    | nil => cases f2 <;> rfl
    | cons a l =>
      cases f2 with
      | zero => simp at h2
      | succ f2 =>
        simp only [chunksOfFuel]
        congr 1
        simp only [List.length_cons] at h1 h2
        apply ih
        · simp only [List.length_drop, List.length_cons]
          omega
        · simp only [List.length_drop, List.length_cons]
          omega

theorem chunksOf_nil (k : ℕ) : chunksOf k ([] : List α) = [] := rfl

/-- Unfolding `chunksOf` once when the list starts with a full chunk. -/
theorem chunksOf_append {k : ℕ} (hk : 0 < k) (a b : List α)
    (ha : a.length = k) : chunksOf k (a ++ b) = a :: chunksOf k b := by
  obtain ⟨x, a', rfl⟩ : ∃ x a', a = x :: a' := by
    cases a with
    | nil => simp at ha; omega
    | cons x a' => exact ⟨x, a', rfl⟩
  show chunksOfFuel k ((x :: a') ++ b).length ((x :: a') ++ b) = _
  have hlen : ((x :: a') ++ b).length = (a' ++ b).length + 1 := by simp
  rw [hlen]
  rw [show (x :: a') ++ b = x :: (a' ++ b) from rfl]
  simp only [chunksOfFuel]
  rw [show x :: (a' ++ b) = (x :: a') ++ b from rfl]
  rw [List.take_left' ha, List.drop_left' ha]
  congr 1
  apply chunksOfFuel_congr hk
  · simp
  · exact le_refl _

theorem chunksOf_length {k : ℕ} (hk : 0 < k) :
    ∀ (n : ℕ) (l : List α), l.length = n * k → (chunksOf k l).length = n := by
  intro n
  induction n with
  | zero =>
    intro l hl
    have : l = [] := List.eq_nil_of_length_eq_zero (by simpa using hl)
    simp [this, chunksOf_nil]
  | succ n ih =>
    intro l hl
    have hl' : l.length = n * k + k := by rw [hl, Nat.succ_mul]
    have hsplit : l = l.take k ++ l.drop k := (List.take_append_drop k l).symm
    have htk : (l.take k).length = k := by
      simp only [List.length_take]
      omega
    have hdk : (l.drop k).length = n * k := by
      simp only [List.length_drop]
      omega
    rw [hsplit, chunksOf_append hk _ _ htk]
    simp [ih _ hdk]

theorem chunksOf_mem_length {k : ℕ} (hk : 0 < k) :
    ∀ (n : ℕ) (l : List α), l.length = n * k →
      ∀ ch ∈ chunksOf k l, ch.length = k := by
  intro n
  induction n with
  | zero =>
    intro l hl
    have : l = [] := List.eq_nil_of_length_eq_zero (by simpa using hl)
    simp [this, chunksOf_nil]
  | succ n ih =>
    intro l hl ch hch
    have hl' : l.length = n * k + k := by rw [hl, Nat.succ_mul]
    have hsplit : l = l.take k ++ l.drop k := (List.take_append_drop k l).symm
    have htk : (l.take k).length = k := by
      simp only [List.length_take]
      omega
    have hdk : (l.drop k).length = n * k := by
      simp only [List.length_drop]
      omega
    rw [hsplit, chunksOf_append hk _ _ htk] at hch
    rcases List.mem_cons.mp hch with h | h
    · rw [h]; exact htk
    · exact ih _ hdk ch h

theorem applyReset_length (inits : Row) (m : Mat) :
    (applyReset inits m).length = min inits.length m.length := by
  simp [applyReset]

theorem cellBatch_length (cell : CellFn) (x h c : Mat) :
    (cellBatch cell x h c).1.length = min x.length (min h.length c.length) ∧
    (cellBatch cell x h c).2.length = min x.length (min h.length c.length) := by
  simp [cellBatch]

theorem reduceMean_length {k : ℕ} (hk : 0 < k) (n : ℕ) (m : Mat)
    (hm : m.length = n * k) : (reduceMean k m).length = n := by
  simp [reduceMean, chunksOf_length hk n m hm]

/-! ### The mean of `k` identical rows is the row itself -/

theorem zipWith_zipWith_same (f g : ℚ → ℚ → ℚ) :
    ∀ (s r : Row),
      List.zipWith f (List.zipWith g s r) r =
        List.zipWith (fun a b => f (g a b) b) s r
  | [], r => by simp
  | a :: s, [] => by simp
  | a :: s, b :: r => by
    simp [zipWith_zipWith_same f g s r]

theorem zipWith_const_left :
    ∀ (s r : Row), s.length ≤ r.length →
      List.zipWith (fun a (_ : ℚ) => a) s r = s := by
  intro s
  induction s with
  | nil => intro r _; rfl
  | cons a s ih =>
    intro r h
    cases r with
    | nil => simp at h
    | cons b r =>
      simp only [List.zipWith_cons_cons, List.cons.injEq, true_and]
      exact ih r (by simpa using h)

theorem zipWith_self (f : ℚ → ℚ → ℚ) :
    ∀ l : Row, List.zipWith f l l = l.map (fun a => f a a)
  | [] => rfl
  | a :: l => by simp [zipWith_self f l]

theorem foldl_addRow_replicate :
    ∀ (n : ℕ) (s r : Row), s.length = r.length →
      (List.replicate n r).foldl addRow s =
        List.zipWith (fun a b => a + (n : ℚ) * b) s r := by
  intro n
  induction n with
  | zero =>
    intro s r hlen
    simp only [List.replicate, List.foldl_nil, Nat.cast_zero]
    rw [show (fun (a b : ℚ) => a + 0 * b) = (fun a (_ : ℚ) => a) from by
      funext a b
      ring]
    exact (zipWith_const_left s r (Nat.le_of_eq hlen)).symm
  | succ n ih =>
    intro s r hlen
    rw [List.replicate_succ, List.foldl_cons,
      ih (addRow s r) r (by simp [addRow, hlen]),
      show addRow s r = List.zipWith (· + ·) s r from rfl,
      zipWith_zipWith_same]
    rw [show (fun (a b : ℚ) => a + b + (n : ℚ) * b)
        = (fun (a b : ℚ) => a + ((n : ℚ) + 1) * b) from by
      funext a b
      ring]
    push_cast
    rfl

theorem meanRows_replicate {k : ℕ} (hk : 0 < k) (r : Row) :
    meanRows (List.replicate k r) = r := by
  obtain ⟨n, rfl⟩ : ∃ n, k = n + 1 := ⟨k - 1, by omega⟩
  rw [List.replicate_succ]
  simp only [meanRows]
  rw [foldl_addRow_replicate n r r rfl]
  rw [zipWith_self]
  simp only [List.length_replicate]
  rw [List.map_map]
  rw [show (fun v => v / ((n : ℚ) + 1)) ∘ (fun a => a + (n : ℚ) * a) = id from ?_]
  · simp
  · funext a
    have : ((n : ℚ) + 1) ≠ 0 := by positivity
    field_simp
    ring

/-! ### Unfolding lemmas for the step and the loop -/

@[simp]

theorem forwardStep_idx (cell : CellFn) (mode : MergeMode) (ms ts i : ℕ)
    (xi : Mat) (ini : Row) (h c : Mat) :
    (forwardStep cell mode ms ts i xi ini h c).idx = i := rfl

@[simp]

theorem forwardStep_inits (cell : CellFn) (mode : MergeMode) (ms ts i : ℕ)
    (xi : Mat) (ini : Row) (h c : Mat) :
    (forwardStep cell mode ms ts i xi ini h c).inits = ini := rfl

@[simp]

theorem forwardStep_hIn (cell : CellFn) (mode : MergeMode) (ms ts i : ℕ)
    (xi : Mat) (ini : Row) (h c : Mat) :
    (forwardStep cell mode ms ts i xi ini h c).hIn = h := rfl

@[simp]

theorem forwardStep_cIn (cell : CellFn) (mode : MergeMode) (ms ts i : ℕ)
    (xi : Mat) (ini : Row) (h c : Mat) :
    (forwardStep cell mode ms ts i xi ini h c).cIn = c := rfl

theorem forwardStep_hExp (cell : CellFn) (mode : MergeMode) (ms ts i : ℕ)
    (xi : Mat) (ini : Row) (h c : Mat) :
    (forwardStep cell mode ms ts i xi ini h c).hExp =
      if 1 < ms ∧ (i = 0 ∨ mode = MergeMode.inner)
      then repeat_interleave ms h else h := rfl

theorem forwardStep_cExp (cell : CellFn) (mode : MergeMode) (ms ts i : ℕ)
    (xi : Mat) (ini : Row) (h c : Mat) :
    (forwardStep cell mode ms ts i xi ini h c).cExp =
      if 1 < ms ∧ (i = 0 ∨ mode = MergeMode.inner)
      then repeat_interleave ms c else c := rfl

theorem forwardStep_hMask (cell : CellFn) (mode : MergeMode) (ms ts i : ℕ)
    (xi : Mat) (ini : Row) (h c : Mat) :
    (forwardStep cell mode ms ts i xi ini h c).hMask =
      applyReset ini (forwardStep cell mode ms ts i xi ini h c).hExp := rfl

theorem forwardStep_cMask (cell : CellFn) (mode : MergeMode) (ms ts i : ℕ)
    (xi : Mat) (ini : Row) (h c : Mat) :
    (forwardStep cell mode ms ts i xi ini h c).cMask =
      applyReset ini (forwardStep cell mode ms ts i xi ini h c).cExp := rfl

theorem forwardStep_hCell (cell : CellFn) (mode : MergeMode) (ms ts i : ℕ)
    (xi : Mat) (ini : Row) (h c : Mat) :
    (forwardStep cell mode ms ts i xi ini h c).hCell =
      (cellBatch cell xi (forwardStep cell mode ms ts i xi ini h c).hMask
        (forwardStep cell mode ms ts i xi ini h c).cMask).1 := rfl

theorem forwardStep_cCell (cell : CellFn) (mode : MergeMode) (ms ts i : ℕ)
    (xi : Mat) (ini : Row) (h c : Mat) :
    (forwardStep cell mode ms ts i xi ini h c).cCell =
      (cellBatch cell xi (forwardStep cell mode ms ts i xi ini h c).hMask
        (forwardStep cell mode ms ts i xi ini h c).cMask).2 := rfl

theorem forwardStep_hOut (cell : CellFn) (mode : MergeMode) (ms ts i : ℕ)
    (xi : Mat) (ini : Row) (h c : Mat) :
    (forwardStep cell mode ms ts i xi ini h c).hOut =
      if 1 < ms ∧ (i = ts - 1 ∨ mode = MergeMode.inner)
      then reduceMean ms (forwardStep cell mode ms ts i xi ini h c).hCell
      else (forwardStep cell mode ms ts i xi ini h c).hCell := rfl

theorem forwardStep_cOut (cell : CellFn) (mode : MergeMode) (ms ts i : ℕ)
    (xi : Mat) (ini : Row) (h c : Mat) :
    (forwardStep cell mode ms ts i xi ini h c).cOut =
      if 1 < ms ∧ (i = ts - 1 ∨ mode = MergeMode.inner)
      then reduceMean ms (forwardStep cell mode ms ts i xi ini h c).cCell
      else (forwardStep cell mode ms ts i xi ini h c).cCell := rfl

theorem forwardLoop_length (cell : CellFn) (mode : MergeMode) (ms ts : ℕ) :
    ∀ (ps : List (Mat × Row)) (i : ℕ) (h c : Mat),
      (forwardLoop cell mode ms ts i ps h c).length = ps.length := by
  intro ps
  induction ps with
  | nil => intro i h c; rfl
  | cons p rest ih =>
    intro i h c
    obtain ⟨xi, ini⟩ := p
    simp [forwardLoop, ih]

theorem finalOf_cons (h c : Mat) (st : StepTrace) (tr : List StepTrace) :
    finalOf h c (st :: tr) = finalOf st.hOut st.cOut tr := by
  cases tr with
  | nil => rfl
  | cons st2 tr2 =>
    simp only [finalOf, List.getLast?_cons_cons, List.getLast?_cons,
      Option.getD_some]

/-- Reducing the `k`-fold interleaved repetition of a state recovers the
state: each block of `k` consecutive rows is a `replicate`, whose mean is
the repeated row. -/
theorem reduceMean_repeat_interleave {k : ℕ} (hk : 1 ≤ k) :
    ∀ m : Mat, reduceMean k (repeat_interleave k m) = m := by
  intro m
  induction m with
  | nil => rfl
  | cons r m ih =>
    rw [repeat_interleave_cons]
    unfold reduceMean
    rw [chunksOf_append hk _ _ (by simp)]
    simp only [List.map_cons]
    rw [meanRows_replicate hk r]
    have := ih
    unfold reduceMean at this
    rw [this]

/-! ### Inverting a successful `forwardRun` -/

theorem forwardChecks_spec {u : ℕ} {x hx cx : Mat} {inits : Row} {ts : ℕ}
    (h : forwardChecks u x hx cx inits ts = true) :
    (∀ r ∈ hx, r.length = u) ∧ (∀ r ∈ cx, r.length = u) ∧
    0 < hx.length ∧ x.length % hx.length = 0 ∧ 0 < ts ∧ x.length % ts = 0 ∧
    0 < x.length / hx.length ∧
    hx.length = ts * ((x.length / ts) / (x.length / hx.length)) ∧
    cx.length = ts * ((x.length / ts) / (x.length / hx.length)) ∧
    inits.length = ((x.length / ts) * ts) / (x.length / hx.length) := by
  simp only [forwardChecks, Bool.and_eq_true, List.all_eq_true, beq_iff_eq,
    decide_eq_true_eq] at h
  tauto

theorem forwardRun_eq_some {cell : CellFn} {mode : MergeMode} {u : ℕ}
    {x hx cx : Mat} {inits : Row} {ts : ℕ} {fr : ForwardRun}
    (h : forwardRun cell mode u x hx cx inits ts = some fr) :
    forwardChecks u x hx cx inits ts = true ∧
    fr = forwardCore cell mode x hx cx inits ts := by
  by_cases hc : forwardChecks u x hx cx inits ts = true
  · rw [forwardRun, if_pos hc] at h
    exact ⟨hc, (Option.some_inj.mp h).symm⟩
  · rw [forwardRun, if_neg hc] at h
    cases h

/-- The arithmetic consequences of the shape checks, in terms of the derived
quantities `multi_sample = |x| / |hx|`, `batch_size = |x| / timesteps` and
`|x| / timesteps / multi_sample` (the number of logical sequences). -/
theorem forward_shape_facts {u : ℕ} {x hx cx : Mat} {inits : Row} {ts : ℕ}
    (h : forwardChecks u x hx cx inits ts = true) :
    0 < x.length / hx.length ∧ 0 < ts ∧ 0 < x.length / ts ∧
    0 < (x.length / ts) / (x.length / hx.length) ∧
    x.length = ts * (x.length / ts) ∧
    x.length / ts =
      (x.length / hx.length) * ((x.length / ts) / (x.length / hx.length)) ∧
    hx.length = ts * ((x.length / ts) / (x.length / hx.length)) ∧
    cx.length = ts * ((x.length / ts) / (x.length / hx.length)) ∧
    inits.length = ts * ((x.length / ts) / (x.length / hx.length)) := by
  obtain ⟨-, -, hhx, hdvd, hts, hdts, hms, hhxv, hcxv, hinit⟩ :=
    forwardChecks_spec h
  set L := x.length with hL
  set ms := L / hx.length with hmsd
  set bs := L / ts with hbsd
  set bs2 := bs / ms with hbs2d
  have hxms : ms * hx.length = L :=
    Nat.div_mul_cancel (Nat.dvd_of_mod_eq_zero hdvd)
  have hxts : bs * ts = L :=
    Nat.div_mul_cancel (Nat.dvd_of_mod_eq_zero hdts)
  have hxpos : 0 < L := hxms ▸ Nat.mul_pos hms hhx
  have hbspos : 0 < bs := by
    rcases Nat.eq_zero_or_pos bs with h0 | h0
    · rw [h0, Nat.zero_mul] at hxts
      omega
    · exact h0
  have hbs2pos : 0 < bs2 := by
    rcases Nat.eq_zero_or_pos bs2 with h0 | h0
    · rw [h0, Nat.mul_zero] at hhxv
      omega
    · exact h0
  have hbs : bs = ms * bs2 := by
    have e2 : L = ms * (ts * bs2) := by
      rw [← hhxv]
      exact hxms.symm
    have e3 : ts * bs = ts * (ms * bs2) := by
      rw [show ts * bs = bs * ts from Nat.mul_comm _ _, hxts, e2]
      ring
    exact Nat.eq_of_mul_eq_mul_left hts e3
  have hinit' : inits.length = ts * bs2 := by
    rw [hinit]
    rw [show bs * ts = ms * (bs2 * ts) from by rw [hbs]; ring]
    rw [Nat.mul_div_cancel_left _ hms]
    exact Nat.mul_comm _ _
  refine ⟨hms, hts, hbspos, hbs2pos, ?_, hbs, hhxv, hcxv, hinit'⟩
  rw [← hxts]
  exact (Nat.mul_comm _ _)

/-! ### Row counts of the carried state through the loop -/

theorem expectedLen_zero (ms : ℕ) (mode : MergeMode) (bs2 : ℕ) :
    expectedLen ms mode bs2 0 = bs2 := by
  unfold expectedLen
  rw [if_neg]
  rintro ⟨-, -, h⟩
  exact h rfl

theorem expand_length (mode : MergeMode) {ms bs2 i : ℕ} (hms : 0 < ms)
    {h : Mat} (hh : h.length = expectedLen ms mode bs2 i) :
    (if 1 < ms ∧ (i = 0 ∨ mode = MergeMode.inner)
      then repeat_interleave ms h else h).length = ms * bs2 := by
  by_cases hc : 1 < ms ∧ (i = 0 ∨ mode = MergeMode.inner)
  · rw [if_pos hc, repeat_interleave_length, hh]
    have he : expectedLen ms mode bs2 i = bs2 := by
      unfold expectedLen
      rcases hc.2 with h0 | hmode
      · rw [if_neg]
        rintro ⟨-, -, hne⟩
        exact hne h0
      · rw [if_neg]
        rintro ⟨-, ho, -⟩
        rw [hmode] at ho
        simp at ho
    rw [he]
  · rw [if_neg hc, hh]
    unfold expectedLen
    by_cases h1 : 1 < ms
    · have h2 : ¬(i = 0 ∨ mode = MergeMode.inner) := fun hor => hc ⟨h1, hor⟩
      push_neg at h2
      have hmode : mode = MergeMode.outer := by
        cases mode
        · rfl
        · exact absurd rfl h2.2
      rw [if_pos ⟨h1, hmode, h2.1⟩]
    · have hms1 : ms = 1 := by omega
      subst hms1
      rw [if_neg (by rintro ⟨hlt, -, -⟩; omega)]
      omega

theorem reduce_length_if (mode : MergeMode) {ms ts bs2 i : ℕ} (hms : 0 < ms)
    {m : Mat} (hm : m.length = ms * bs2) :
    (if 1 < ms ∧ (i = ts - 1 ∨ mode = MergeMode.inner)
      then reduceMean ms m else m).length =
      if 1 < ms ∧ (i = ts - 1 ∨ mode = MergeMode.inner)
      then bs2 else ms * bs2 := by
  by_cases hc : 1 < ms ∧ (i = ts - 1 ∨ mode = MergeMode.inner)
  · rw [if_pos hc, if_pos hc]
    exact reduceMean_length hms bs2 m (by rw [hm]; ring)
  · rw [if_neg hc, if_neg hc, hm]

theorem out_length_last (mode : MergeMode) {ms ts bs2 i : ℕ} (hms : 0 < ms)
    (hi : i = ts - 1) :
    (if 1 < ms ∧ (i = ts - 1 ∨ mode = MergeMode.inner)
      then bs2 else ms * bs2) = bs2 := by
  by_cases h1 : 1 < ms
  · rw [if_pos ⟨h1, Or.inl hi⟩]
  · have hms1 : ms = 1 := by omega
    subst hms1
    rw [if_neg (by rintro ⟨hlt, -⟩; omega)]
    omega

theorem out_length_mid {mode : MergeMode} {ms ts bs2 i : ℕ} (hms : 0 < ms)
    (hi : i ≠ ts - 1) :
    (if 1 < ms ∧ (i = ts - 1 ∨ mode = MergeMode.inner)
      then bs2 else ms * bs2) = expectedLen ms mode bs2 (i + 1) := by
  unfold expectedLen
  by_cases h1 : 1 < ms
  · cases mode with
    | inner =>
      rw [if_pos ⟨h1, Or.inr rfl⟩, if_neg (by rintro ⟨-, hmo, -⟩; simp at hmo)]
    | outer =>
      rw [if_neg (by
          rintro ⟨-, hor⟩
          rcases hor with h0 | h0
          · exact hi h0
          · simp at h0),
        if_pos ⟨h1, rfl, by omega⟩]
  · have hms1 : ms = 1 := by omega
    subst hms1
    rw [if_neg (by rintro ⟨hlt, -⟩; omega), if_neg (by rintro ⟨hlt, -, -⟩; omega)]
    omega

theorem forwardStep_lengths (cell : CellFn) (mode : MergeMode)
    {ms : ℕ} (ts i : ℕ) {bs2 : ℕ} (hms : 0 < ms) {xi : Mat} {ini : Row}
    {h c : Mat}
    (hxi : xi.length = ms * bs2) (hini : ini.length = ms * bs2)
    (hh : h.length = expectedLen ms mode bs2 i)
    (hc : c.length = expectedLen ms mode bs2 i) :
    (forwardStep cell mode ms ts i xi ini h c).hExp.length = ms * bs2 ∧
    (forwardStep cell mode ms ts i xi ini h c).cExp.length = ms * bs2 ∧
    (forwardStep cell mode ms ts i xi ini h c).hMask.length = ms * bs2 ∧
    (forwardStep cell mode ms ts i xi ini h c).cMask.length = ms * bs2 ∧
    (forwardStep cell mode ms ts i xi ini h c).hCell.length = ms * bs2 ∧
    (forwardStep cell mode ms ts i xi ini h c).cCell.length = ms * bs2 ∧
    ((forwardStep cell mode ms ts i xi ini h c).hOut.length =
      if 1 < ms ∧ (i = ts - 1 ∨ mode = MergeMode.inner)
      then bs2 else ms * bs2) ∧
    ((forwardStep cell mode ms ts i xi ini h c).cOut.length =
      if 1 < ms ∧ (i = ts - 1 ∨ mode = MergeMode.inner)
      then bs2 else ms * bs2) := by
  have hE : (forwardStep cell mode ms ts i xi ini h c).hExp.length
      = ms * bs2 := by
    rw [forwardStep_hExp]
    exact expand_length mode hms hh
  have hcE : (forwardStep cell mode ms ts i xi ini h c).cExp.length
      = ms * bs2 := by
    rw [forwardStep_cExp]
    exact expand_length mode hms hc
  have hM : (forwardStep cell mode ms ts i xi ini h c).hMask.length
      = ms * bs2 := by
    rw [forwardStep_hMask, applyReset_length, hini, hE, Nat.min_self]
  have hcM : (forwardStep cell mode ms ts i xi ini h c).cMask.length
      = ms * bs2 := by
    rw [forwardStep_cMask, applyReset_length, hini, hcE, Nat.min_self]
  have hCl : (forwardStep cell mode ms ts i xi ini h c).hCell.length
      = ms * bs2 := by
    rw [forwardStep_hCell, (cellBatch_length cell xi _ _).1, hxi, hM, hcM]
    simp
  have hcCl : (forwardStep cell mode ms ts i xi ini h c).cCell.length
      = ms * bs2 := by
    rw [forwardStep_cCell, (cellBatch_length cell xi _ _).2, hxi, hM, hcM]
    simp
  refine ⟨hE, hcE, hM, hcM, hCl, hcCl, ?_, ?_⟩
  · rw [forwardStep_hOut]
    exact reduce_length_if mode hms hCl
  · rw [forwardStep_cOut]
    exact reduce_length_if mode hms hcCl

/-- Shape invariant of the timestep loop: with well-shaped per-timestep
inputs and a well-shaped entering state, every iteration sees
expanded-width (`ms * bs2`-row) inputs to the reset masking and the cell,
and the state left after the last iteration has `bs2` rows. -/
theorem forwardLoop_shapes (cell : CellFn) (mode : MergeMode) {ms : ℕ}
    (ts bs2 : ℕ) (hms : 0 < ms) :
    ∀ (ps : List (Mat × Row)) (i : ℕ) (h c : Mat),
      (∀ p ∈ ps, (Prod.fst p).length = ms * bs2 ∧
        (Prod.snd p).length = ms * bs2) →
      i + ps.length = ts →
      h.length = expectedLen ms mode bs2 i →
      c.length = expectedLen ms mode bs2 i →
      (∀ st ∈ forwardLoop cell mode ms ts i ps h c,
        st.inits.length = ms * bs2 ∧ st.hExp.length = ms * bs2 ∧
        st.cExp.length = ms * bs2 ∧ st.hMask.length = ms * bs2 ∧
        st.cMask.length = ms * bs2 ∧ st.hCell.length = ms * bs2 ∧
        st.cCell.length = ms * bs2) ∧
      (ps ≠ [] →
        (finalOf h c (forwardLoop cell mode ms ts i ps h c)).1.length = bs2 ∧
        (finalOf h c (forwardLoop cell mode ms ts i ps h c)).2.length
          = bs2) := by
  intro ps
  induction ps with
  | nil =>
    intro i h c hps hits hh hc
    constructor
    · intro st hst
      cases hst
    · intro hne
      exact absurd rfl hne
  | cons p rest ih =>
    intro i h c hps hits hh hc
    obtain ⟨xi, ini⟩ := p
    have hxi : xi.length = ms * bs2 := (hps _ (List.mem_cons_self _ _)).1
    have hini : ini.length = ms * bs2 := (hps _ (List.mem_cons_self _ _)).2
    obtain ⟨hE, hcE, hM, hcM, hCl, hcCl, hO, hcO⟩ :=
      forwardStep_lengths cell mode ts i hms hxi hini hh hc
    have hloop : forwardLoop cell mode ms ts i ((xi, ini) :: rest) h c =
        forwardStep cell mode ms ts i xi ini h c ::
          forwardLoop cell mode ms ts (i + 1) rest
            (forwardStep cell mode ms ts i xi ini h c).hOut
            (forwardStep cell mode ms ts i xi ini h c).cOut := rfl
    cases rest with
    | nil =>
      have hi : i = ts - 1 := by
        simp only [List.length_cons, List.length_nil] at hits
        omega
      rw [hloop]
      constructor
      · intro st hst
        rcases List.mem_cons.mp hst with h0 | h0
        · subst h0
          exact ⟨hini, hE, hcE, hM, hcM, hCl, hcCl⟩
        · cases h0
      · intro _
        rw [show forwardLoop cell mode ms ts (i + 1) []
              (forwardStep cell mode ms ts i xi ini h c).hOut
              (forwardStep cell mode ms ts i xi ini h c).cOut = [] from rfl]
        rw [finalOf_cons]
        constructor
        · rw [show (finalOf (forwardStep cell mode ms ts i xi ini h c).hOut
              (forwardStep cell mode ms ts i xi ini h c).cOut []).1 =
              (forwardStep cell mode ms ts i xi ini h c).hOut from rfl]
          rw [hO]
          exact out_length_last mode hms hi
        · rw [show (finalOf (forwardStep cell mode ms ts i xi ini h c).hOut
              (forwardStep cell mode ms ts i xi ini h c).cOut []).2 =
              (forwardStep cell mode ms ts i xi ini h c).cOut from rfl]
          rw [hcO]
          exact out_length_last mode hms hi
    | cons q rest' =>
      have hi : i ≠ ts - 1 := by
        simp only [List.length_cons] at hits
        omega
      have hout : (forwardStep cell mode ms ts i xi ini h c).hOut.length
          = expectedLen ms mode bs2 (i + 1) := by
        rw [hO]
        exact out_length_mid hms hi
      have hcout : (forwardStep cell mode ms ts i xi ini h c).cOut.length
          = expectedLen ms mode bs2 (i + 1) := by
        rw [hcO]
        exact out_length_mid hms hi
      have hits' : (i + 1) + (q :: rest').length = ts := by
        simp only [List.length_cons] at hits ⊢
        omega
      have hps' : ∀ p ∈ q :: rest', (Prod.fst p).length = ms * bs2 ∧
          (Prod.snd p).length = ms * bs2 := by
        intro p hp
        exact hps p (List.mem_cons_of_mem _ hp)
      obtain ⟨ihmem, ihfin⟩ := ih (i + 1)
        (forwardStep cell mode ms ts i xi ini h c).hOut
        (forwardStep cell mode ms ts i xi ini h c).cOut
        hps' hits' hout hcout
      rw [hloop]
      constructor
      · intro st hst
        rcases List.mem_cons.mp hst with h0 | h0
        · subst h0
          exact ⟨hini, hE, hcE, hM, hcM, hCl, hcCl⟩
        · exact ihmem st h0
      · intro _
        rw [finalOf_cons]
        exact ihfin (by simp)

theorem forwardCore_trace (cell : CellFn) (mode : MergeMode) (x hx cx : Mat)
    (inits : Row) (ts : ℕ) :
    (forwardCore cell mode x hx cx inits ts).trace =
      forwardLoop cell mode (x.length / hx.length) ts 0
        ((chunksOf (x.length / ts) x).zip (chunksOf (x.length / ts)
          (if 1 < x.length / hx.length
            then repeat_interleave (x.length / hx.length) inits else inits)))
        (hx.take ((x.length / ts) / (x.length / hx.length)))
        (cx.take ((x.length / ts) / (x.length / hx.length))) := rfl

theorem forwardCore_out (cell : CellFn) (mode : MergeMode) (x hx cx : Mat)
    (inits : Row) (ts : ℕ) :
    (forwardCore cell mode x hx cx inits ts).out =
      ((forwardCore cell mode x hx cx inits ts).trace.map
        StepTrace.hCell).flatten := rfl

theorem forwardCore_hFinal (cell : CellFn) (mode : MergeMode) (x hx cx : Mat)
    (inits : Row) (ts : ℕ) :
    (forwardCore cell mode x hx cx inits ts).hFinal =
      (finalOf (hx.take ((x.length / ts) / (x.length / hx.length)))
        (cx.take ((x.length / ts) / (x.length / hx.length)))
        (forwardCore cell mode x hx cx inits ts).trace).1 := rfl

theorem forwardCore_cFinal (cell : CellFn) (mode : MergeMode) (x hx cx : Mat)
    (inits : Row) (ts : ℕ) :
    (forwardCore cell mode x hx cx inits ts).cFinal =
      (finalOf (hx.take ((x.length / ts) / (x.length / hx.length)))
        (cx.take ((x.length / ts) / (x.length / hx.length)))
        (forwardCore cell mode x hx cx inits ts).trace).2 := rfl

theorem flatten_map_hCell_length {l : List StepTrace} {k : ℕ}
    (h : ∀ st ∈ l, st.hCell.length = k) :
    ((l.map StepTrace.hCell).flatten).length = l.length * k := by
  induction l with
  | nil => simp
  | cons a l ih =>
    simp only [List.map_cons, List.flatten_cons, List.length_append,
      List.length_cons]
    rw [h a (List.mem_cons_self _ _),
      ih (fun st hst => h st (List.mem_cons_of_mem _ hst))]
    ring

/-- Shapes produced by a checked `forward` call: `timesteps` iterations,
every iteration working on `batch_size`-row data, a final state of
`batch_size / multi_sample` rows, and an output with one row per input
row. -/
theorem forwardCore_shapes (cell : CellFn) (mode : MergeMode) {u : ℕ}
    {x hx cx : Mat} {inits : Row} {ts : ℕ}
    (h : forwardChecks u x hx cx inits ts = true) :
    (forwardCore cell mode x hx cx inits ts).trace.length = ts ∧
    (∀ st ∈ (forwardCore cell mode x hx cx inits ts).trace,
      st.inits.length = x.length / ts ∧ st.hExp.length = x.length / ts ∧
      st.cExp.length = x.length / ts ∧ st.hMask.length = x.length / ts ∧
      st.cMask.length = x.length / ts ∧ st.hCell.length = x.length / ts ∧
      st.cCell.length = x.length / ts) ∧
    (forwardCore cell mode x hx cx inits ts).hFinal.length
      = (x.length / ts) / (x.length / hx.length) ∧
    (forwardCore cell mode x hx cx inits ts).cFinal.length
      = (x.length / ts) / (x.length / hx.length) ∧
    (forwardCore cell mode x hx cx inits ts).out.length = x.length := by
  obtain ⟨hms, hts, hbspos, hbs2pos, hxts, hbs, hhxv, hcxv, hinitv⟩ :=
    forward_shape_facts h
  set ms := x.length / hx.length with hmsd
  set bs := x.length / ts with hbsd
  set bs2 := bs / ms with hbs2d
  set inits2 := if 1 < ms then repeat_interleave ms inits else inits
    with hinits2d
  have hxlen : x.length = ts * bs := hxts
  have hxlen' : x.length = ts * bs := hxlen
  have hinits2 : inits2.length = ts * bs := by
    rw [hinits2d]
    by_cases h1 : 1 < ms
    · rw [if_pos h1, repeat_interleave_length, hinitv, hbs]
      ring
    · have hms1 : ms = 1 := by omega
      rw [if_neg h1, hinitv, hbs, hms1]
      ring
  set ps := (chunksOf bs x).zip (chunksOf bs inits2) with hpsd
  have hxc : (chunksOf bs x).length = ts :=
    chunksOf_length hbspos ts x hxlen
  have hic : (chunksOf bs inits2).length = ts :=
    chunksOf_length hbspos ts inits2 hinits2
  have hps_len : ps.length = ts := by
    rw [hpsd, List.length_zip, hxc, hic, Nat.min_self]
  have hps_mem : ∀ p ∈ ps, (Prod.fst p).length = ms * bs2 ∧
      (Prod.snd p).length = ms * bs2 := by
    intro p hp
    obtain ⟨h1, h2⟩ := List.of_mem_zip hp
    constructor
    · rw [← hbs]
      exact chunksOf_mem_length hbspos ts x hxlen _ h1
    · rw [← hbs]
      exact chunksOf_mem_length hbspos ts inits2 hinits2 _ h2
  have hx0 : (hx.take bs2).length = bs2 := by
    rw [List.length_take]
    have hle : bs2 ≤ ts * bs2 := Nat.le_mul_of_pos_left bs2 hts
    omega
  have hc0 : (cx.take bs2).length = bs2 := by
    rw [List.length_take]
    have hle : bs2 ≤ ts * bs2 := Nat.le_mul_of_pos_left bs2 hts
    omega
  obtain ⟨hmem, hfin⟩ := forwardLoop_shapes cell mode ts bs2 hms ps 0
    (hx.take bs2) (cx.take bs2) hps_mem (by rw [hps_len]; omega)
    (by rw [hx0, expectedLen_zero]) (by rw [hc0, expectedLen_zero])
  have hpne : ps ≠ [] := by
    intro he
    rw [he] at hps_len
    simp at hps_len
    omega
  have htr : (forwardCore cell mode x hx cx inits ts).trace =
      forwardLoop cell mode ms ts 0 ps (hx.take bs2) (cx.take bs2) :=
    forwardCore_trace cell mode x hx cx inits ts
  have htrlen : (forwardCore cell mode x hx cx inits ts).trace.length = ts := by
    rw [htr, forwardLoop_length, hps_len]
  have hmem' : ∀ st ∈ (forwardCore cell mode x hx cx inits ts).trace,
      st.inits.length = bs ∧ st.hExp.length = bs ∧
      st.cExp.length = bs ∧ st.hMask.length = bs ∧
      st.cMask.length = bs ∧ st.hCell.length = bs ∧
      st.cCell.length = bs := by
    intro st hst
    rw [htr] at hst
    obtain ⟨a1, a2, a3, a4, a5, a6, a7⟩ := hmem st hst
    rw [hbs]
    exact ⟨a1, a2, a3, a4, a5, a6, a7⟩
  refine ⟨htrlen, hmem', ?_, ?_, ?_⟩
  · rw [forwardCore_hFinal, htr]
    exact (hfin hpne).1
  · rw [forwardCore_cFinal, htr]
    exact (hfin hpne).2
  · rw [forwardCore_out]
    rw [flatten_map_hCell_length (fun st hst => (hmem' st hst).2.2.2.2.2.1)]
    rw [htrlen, ← hxlen]

/-! ### What each loop iteration does, as a relation on its trace record -/

theorem forwardLoop_mem_rel (cell : CellFn) (mode : MergeMode) (ms ts : ℕ) :
    ∀ (ps : List (Mat × Row)) (i : ℕ) (h c : Mat),
      ∀ st ∈ forwardLoop cell mode ms ts i ps h c,
        st.hExp = (if 1 < ms ∧ (st.idx = 0 ∨ mode = MergeMode.inner)
          then repeat_interleave ms st.hIn else st.hIn) ∧
        st.cExp = (if 1 < ms ∧ (st.idx = 0 ∨ mode = MergeMode.inner)
          then repeat_interleave ms st.cIn else st.cIn) ∧
        st.hMask = applyReset st.inits st.hExp ∧
        st.cMask = applyReset st.inits st.cExp ∧
        st.hOut = (if 1 < ms ∧ (st.idx = ts - 1 ∨ mode = MergeMode.inner)
          then reduceMean ms st.hCell else st.hCell) ∧
        st.cOut = (if 1 < ms ∧ (st.idx = ts - 1 ∨ mode = MergeMode.inner)
          then reduceMean ms st.cCell else st.cCell) := by
  intro ps
  induction ps with
  | nil =>
    intro i h c st hst
    cases hst
  | cons p rest ih =>
    intro i h c st hst
    obtain ⟨xi, ini⟩ := p
    rcases List.mem_cons.mp hst with h0 | h0
    · subst h0
      exact ⟨rfl, rfl, rfl, rfl, rfl, rfl⟩
    · exact ih (i + 1) _ _ st h0

theorem forwardLoop_idx (cell : CellFn) (mode : MergeMode) (ms ts : ℕ) :
    ∀ (ps : List (Mat × Row)) (i t : ℕ) (h c : Mat), t < ps.length →
      ((forwardLoop cell mode ms ts i ps h c).getD t default).idx = i + t := by
  intro ps
  induction ps with
  | nil =>
    intro i t h c ht
    simp at ht
  | cons p rest ih =>
    intro i t h c ht
    obtain ⟨xi, ini⟩ := p
    cases t with
    | zero => rfl
    | succ t =>
      show ((forwardLoop cell mode ms ts (i + 1) rest _ _).getD t default).idx
        = i + (t + 1)
      rw [ih (i + 1) t _ _ (by
        simp only [List.length_cons] at ht
        omega)]
      omega

/-! ### Pointwise behaviour of the reset mask -/

theorem applyReset_getD_one :
    ∀ (inits : Row) (m : Mat) (j : ℕ), inits.getD j 0 = 1 →
      ∀ v ∈ (applyReset inits m).getD j [], v = 0 := by
  intro inits
  induction inits with
  | nil =>
    intro m j hj
    simp at hj
  | cons i is ih =>
    intro m j hj
    cases m with
    | nil =>
      intro v hv
      simp [applyReset] at hv
    | cons r ms =>
      cases j with
      | zero =>
        simp only [List.getD_cons_zero] at hj
        intro v hv
        simp only [applyReset, List.zipWith_cons_cons, List.getD_cons_zero,
          List.mem_map] at hv
        obtain ⟨a, -, rfl⟩ := hv
        rw [hj]
        ring
      | succ j =>
        intro v hv
        simp only [List.getD_cons_succ] at hj
        simp only [applyReset, List.zipWith_cons_cons,
          List.getD_cons_succ] at hv
        exact ih ms j hj v hv

theorem applyReset_getD_zero :
    ∀ (inits : Row) (m : Mat) (j : ℕ), inits.length = m.length →
      inits.getD j 0 = 0 →
      (applyReset inits m).getD j [] = m.getD j [] := by
  intro inits
  induction inits with
  | nil =>
    intro m j hlen hj
    have : m = [] := List.eq_nil_of_length_eq_zero hlen.symm
    subst this
    rfl
  | cons i is ih =>
    intro m j hlen hj
    cases m with
    | nil => simp at hlen
    | cons r ms =>
      cases j with
      | zero =>
        simp only [List.getD_cons_zero] at hj
        simp only [applyReset, List.zipWith_cons_cons, List.getD_cons_zero]
        rw [hj]
        simp
      | succ j =>
        simp only [List.getD_cons_succ] at hj
        simp only [applyReset, List.zipWith_cons_cons, List.getD_cons_succ]
        exact ih ms j (by simpa using hlen) hj

theorem getD_mem_of_lt {γ : Type} {l : List γ} (d : γ) :
    ∀ t : ℕ, t < l.length → l.getD t d ∈ l := by
  induction l with
  | nil =>
    intro t ht
    simp at ht
  | cons a l ih =>
    intro t ht
    cases t with
    | zero => exact List.mem_cons_self _ _
    | succ t =>
      exact List.mem_cons_of_mem _ (ih t (by simpa using ht))

theorem stepTrace_default :
    (default : StepTrace) = ⟨0, [], [], [], [], [], [], [], [], [], [], []⟩ :=
  rfl

theorem reduceMean_nil (k : ℕ) : reduceMean k [] = [] := rfl

/-! ### The claims -/

/-- C1: during `forward`, at every timestep `t` (including `t = 0`), a row
whose initials entry at `t` equals 1 enters the opaque cell with an
all-zero state (both `h` and `c`), whatever the earlier timesteps produced,
and a row whose entry is 0 passes into the cell unchanged (relative to the
post-expansion carried state). -/
theorem reset_correctness (cell : CellFn) (mode : MergeMode) (u : ℕ)
    (x hx cx : Mat) (inits : Row) (ts : ℕ) (fr : ForwardRun)
    (hf : forwardRun cell mode u x hx cx inits ts = some fr) (t j : ℕ) :
    ((fr.trace.getD t default).inits.getD j 0 = 1 →
      (∀ v ∈ (fr.trace.getD t default).hMask.getD j [], v = 0) ∧
      (∀ v ∈ (fr.trace.getD t default).cMask.getD j [], v = 0)) ∧
    ((fr.trace.getD t default).inits.getD j 0 = 0 →
      (fr.trace.getD t default).hMask.getD j []
        = (fr.trace.getD t default).hExp.getD j [] ∧
      (fr.trace.getD t default).cMask.getD j []
        = (fr.trace.getD t default).cExp.getD j []) := by
  obtain ⟨hck, rfl⟩ := forwardRun_eq_some hf
  by_cases ht : t < (forwardCore cell mode x hx cx inits ts).trace.length
  · have hmem : (forwardCore cell mode x hx cx inits ts).trace.getD t default
        ∈ (forwardCore cell mode x hx cx inits ts).trace :=
      getD_mem_of_lt default t ht
    obtain ⟨-, -, hm, hcm, -, -⟩ :=
      forwardLoop_mem_rel cell mode (x.length / hx.length) ts _ 0 _ _ _
        (by rw [← forwardCore_trace]; exact hmem)
    obtain ⟨hil, hel, hcl, -, -, -, -⟩ :=
      (forwardCore_shapes cell mode hck).2.1 _ hmem
    constructor
    · intro h1
      rw [hm, hcm]
      exact ⟨applyReset_getD_one _ _ j h1, applyReset_getD_one _ _ j h1⟩
    · intro h0
      rw [hm, hcm]
      exact ⟨applyReset_getD_zero _ _ j (by rw [hil, hel]) h0,
        applyReset_getD_zero _ _ j (by rw [hil, hcl]) h0⟩
  · have hle : (forwardCore cell mode x hx cx inits ts).trace.length ≤ t := by
      omega
    rw [show (forwardCore cell mode x hx cx inits ts).trace.getD t default
        = default from List.getD_eq_default _ _ hle]
    rw [stepTrace_default]
    constructor
    · intro h1
      simp at h1
    · intro h0
      exact ⟨rfl, rfl⟩

/-- Witness for C1: a concrete two-timestep single-sequence run whose
second timestep is flagged initial; the state entering the cell there is
zero. -/
theorem reset_correctness_witness :
    forwardRun w1cell MergeMode.inner 1 [[1], [2]] [[5], [6]] [[7], [8]]
        [1, 1] 2 = some w1fr ∧
    (w1fr.trace.getD 1 default).inits.getD 0 0 = 1 ∧
    ((∀ v ∈ (w1fr.trace.getD 1 default).hMask.getD 0 [], v = 0) ∧
      (∀ v ∈ (w1fr.trace.getD 1 default).cMask.getD 0 [], v = 0)) :=
  ⟨rfl, rfl,
    (reset_correctness w1cell MergeMode.inner 1 [[1], [2]] [[5], [6]]
      [[7], [8]] [1, 1] 2 w1fr rfl 1 0).1 rfl⟩

/-- C2: with `multi_sample > 1` the carried state is expanded by
interleaved repetition exactly at iterations `t = 0` or (always in `inner`
mode), and reduced by the group mean exactly at iterations `t = ts - 1` or
(always in `inner` mode); with `multi_sample = 1` neither expansion nor
reduction ever occurs. -/
theorem multisample_timing (cell : CellFn) (mode : MergeMode) (u : ℕ)
    (x hx cx : Mat) (inits : Row) (ts : ℕ) (fr : ForwardRun)
    (hf : forwardRun cell mode u x hx cx inits ts = some fr) (t : ℕ) :
    ((fr.trace.getD t default).hExp =
      if 1 < x.length / hx.length ∧ (t = 0 ∨ mode = MergeMode.inner)
      then repeat_interleave (x.length / hx.length)
        (fr.trace.getD t default).hIn
      else (fr.trace.getD t default).hIn) ∧
    ((fr.trace.getD t default).cExp =
      if 1 < x.length / hx.length ∧ (t = 0 ∨ mode = MergeMode.inner)
      then repeat_interleave (x.length / hx.length)
        (fr.trace.getD t default).cIn
      else (fr.trace.getD t default).cIn) ∧
    ((fr.trace.getD t default).hOut =
      if 1 < x.length / hx.length ∧ (t = ts - 1 ∨ mode = MergeMode.inner)
      then reduceMean (x.length / hx.length) (fr.trace.getD t default).hCell
      else (fr.trace.getD t default).hCell) ∧
    ((fr.trace.getD t default).cOut =
      if 1 < x.length / hx.length ∧ (t = ts - 1 ∨ mode = MergeMode.inner)
      then reduceMean (x.length / hx.length) (fr.trace.getD t default).cCell
      else (fr.trace.getD t default).cCell) ∧
    (x.length / hx.length = 1 →
      (fr.trace.getD t default).hExp = (fr.trace.getD t default).hIn ∧
      (fr.trace.getD t default).cExp = (fr.trace.getD t default).cIn ∧
      (fr.trace.getD t default).hOut = (fr.trace.getD t default).hCell ∧
      (fr.trace.getD t default).cOut = (fr.trace.getD t default).cCell) := by
  obtain ⟨hck, rfl⟩ := forwardRun_eq_some hf
  have hmain :
      ((forwardCore cell mode x hx cx inits ts).trace.getD t default).hExp =
        (if 1 < x.length / hx.length ∧ (t = 0 ∨ mode = MergeMode.inner)
          then repeat_interleave (x.length / hx.length)
            ((forwardCore cell mode x hx cx inits ts).trace.getD t default).hIn
          else ((forwardCore cell mode x hx cx inits ts).trace.getD t
            default).hIn) ∧
      ((forwardCore cell mode x hx cx inits ts).trace.getD t default).cExp =
        (if 1 < x.length / hx.length ∧ (t = 0 ∨ mode = MergeMode.inner)
          then repeat_interleave (x.length / hx.length)
            ((forwardCore cell mode x hx cx inits ts).trace.getD t default).cIn
          else ((forwardCore cell mode x hx cx inits ts).trace.getD t
            default).cIn) ∧
      ((forwardCore cell mode x hx cx inits ts).trace.getD t default).hOut =
        (if 1 < x.length / hx.length ∧ (t = ts - 1 ∨ mode = MergeMode.inner)
          then reduceMean (x.length / hx.length)
            ((forwardCore cell mode x hx cx inits ts).trace.getD t
              default).hCell
          else ((forwardCore cell mode x hx cx inits ts).trace.getD t
            default).hCell) ∧
      ((forwardCore cell mode x hx cx inits ts).trace.getD t default).cOut =
        (if 1 < x.length / hx.length ∧ (t = ts - 1 ∨ mode = MergeMode.inner)
          then reduceMean (x.length / hx.length)
            ((forwardCore cell mode x hx cx inits ts).trace.getD t
              default).cCell
          else ((forwardCore cell mode x hx cx inits ts).trace.getD t
            default).cCell) := by
    by_cases ht : t < (forwardCore cell mode x hx cx inits ts).trace.length
    · have hmem : (forwardCore cell mode x hx cx inits ts).trace.getD t
          default ∈ (forwardCore cell mode x hx cx inits ts).trace :=
        getD_mem_of_lt default t ht
      obtain ⟨he, hce, -, -, ho, hco⟩ :=
        forwardLoop_mem_rel cell mode (x.length / hx.length) ts _ 0 _ _ _
          (by rw [← forwardCore_trace]; exact hmem)
      have hidx : ((forwardCore cell mode x hx cx inits ts).trace.getD t
          default).idx = t := by
        have hlen : t < ((chunksOf (x.length / ts) x).zip
            (chunksOf (x.length / ts)
              (if 1 < x.length / hx.length
                then repeat_interleave (x.length / hx.length) inits
                else inits))).length := by
          rw [forwardCore_trace, forwardLoop_length] at ht
          exact ht
        have := forwardLoop_idx cell mode (x.length / hx.length) ts _ 0 t
          (hx.take ((x.length / ts) / (x.length / hx.length)))
          (cx.take ((x.length / ts) / (x.length / hx.length))) hlen
        rw [← forwardCore_trace] at this
        rw [this]
        omega
      rw [hidx] at he hce ho hco
      exact ⟨he, hce, ho, hco⟩
    · have hle : (forwardCore cell mode x hx cx inits ts).trace.length
          ≤ t := by omega
      rw [show (forwardCore cell mode x hx cx inits ts).trace.getD t default
          = default from List.getD_eq_default _ _ hle]
      rw [stepTrace_default]
      simp [repeat_interleave_nil, reduceMean_nil]
  obtain ⟨he, hce, ho, hco⟩ := hmain
  refine ⟨he, hce, ho, hco, ?_⟩
  intro hms1
  rw [hms1] at he hce ho hco
  rw [if_neg (by simp)] at he hce
  rw [if_neg (by simp)] at ho hco
  exact ⟨he, hce, ho, hco⟩

/-- Witness for C2: a concrete oversampled run (`multi_sample = 2`,
`inner` mode) where iteration 0 expands the carried state by interleaved
repetition and reduces its cell output by the block mean. -/
theorem multisample_timing_witness :
    forwardRun w2cell MergeMode.inner 1 [[1], [2], [3], [4]] [[5], [6]]
        [[7], [8]] [1, 0] 2 = some w2fr ∧
    (w2fr.trace.getD 0 default).hExp
      = repeat_interleave 2 (w2fr.trace.getD 0 default).hIn ∧
    (w2fr.trace.getD 0 default).hOut
      = reduceMean 2 (w2fr.trace.getD 0 default).hCell := by
  refine ⟨rfl, ?_, ?_⟩
  · have h := (multisample_timing w2cell MergeMode.inner 1 [[1], [2], [3], [4]]
      [[5], [6]] [[7], [8]] [1, 0] 2 w2fr rfl 0).1
    rw [if_pos (And.intro (by decide) (Or.inl rfl))] at h
    exact h
  · have h := (multisample_timing w2cell MergeMode.inner 1 [[1], [2], [3], [4]]
      [[5], [6]] [[7], [8]] [1, 0] 2 w2fr rfl 0).2.2.1
    rw [if_pos (And.intro (by decide) (Or.inr rfl))] at h
    exact h

/-- C3 (amended): the output is the concatenation of the per-timestep cell
outputs in timestep-major order, and in BOTH merge modes every per-timestep
block — including the terminal one — stays in the expanded (oversampled)
form: the total row count is `timesteps * batch_size * multi_sample`
(i.e. the input row count) and each block has
`batch_size * multi_sample` rows.  The final reduction affects only the
carried state, never an appended output. -/
theorem output_shape (cell : CellFn) (mode : MergeMode) (u : ℕ)
    (x hx cx : Mat) (inits : Row) (ts : ℕ) (fr : ForwardRun)
    (hf : forwardRun cell mode u x hx cx inits ts = some fr) :
    fr.out = (fr.trace.map StepTrace.hCell).flatten ∧
    fr.out.length = x.length ∧
    fr.trace.length = ts ∧
    ∀ st ∈ fr.trace, st.hCell.length = x.length / ts := by
  obtain ⟨hck, rfl⟩ := forwardRun_eq_some hf
  obtain ⟨h1, h2, -, -, h5⟩ := forwardCore_shapes cell mode hck
  exact ⟨forwardCore_out cell mode x hx cx inits ts, h5, h1,
    fun st hst => (h2 st hst).2.2.2.2.2.1⟩

/-- C3 counterexample: a concrete `outer`-mode oversampled run
(`multi_sample = 2`, `timesteps = 2`, one logical sequence).  The claim's
"mixed shape" for `outer` mode — all intermediate blocks expanded but the
terminal block reduced — would give `2 + 1 = 3` output rows with a 1-row
terminal block; the code appends every cell output before any reduction,
so the output has `4` rows and the terminal block has `2` rows. -/
theorem output_shape_cex :
    ((forwardRun w3cell MergeMode.outer 1 [[1], [2], [3], [4]] [[5], [6]]
        [[7], [8]] [1, 0] 2).map
      (fun fr => (fr.out.length, (fr.trace.getD 1 default).hCell.length)))
      = some (4, 2) ∧ (4 : ℕ) ≠ 2 + 1 ∧ (2 : ℕ) ≠ 1 := by
  refine ⟨rfl, by decide, by decide⟩

/-- Witness for C3 (amended): the same `outer`-mode run, through the
amended theorem. -/
theorem output_shape_witness :
    forwardRun w3cell MergeMode.outer 1 [[1], [2], [3], [4]] [[5], [6]]
        [[7], [8]] [1, 0] 2 = some w3fr ∧
    (w3fr.out = (w3fr.trace.map StepTrace.hCell).flatten ∧
      w3fr.out.length = [[(1 : ℚ)], [2], [3], [4]].length ∧
      w3fr.trace.length = 2 ∧
      ∀ st ∈ w3fr.trace,
        st.hCell.length = [[(1 : ℚ)], [2], [3], [4]].length / 2) :=
  ⟨rfl, output_shape w3cell MergeMode.outer 1 [[1], [2], [3], [4]] [[5], [6]]
    [[7], [8]] [1, 0] 2 w3fr rfl⟩

/-- C6: after every `forward` call, in both merge modes, the state handed
to the cache has one row per logical sequence:
`|x| / (timesteps * multi_sample)` rows, never the oversampled row
count. -/
theorem reduced_final_state (cell : CellFn) (mode : MergeMode) (u : ℕ)
    (x hx cx : Mat) (inits : Row) (ts : ℕ) (fr : ForwardRun)
    (hf : forwardRun cell mode u x hx cx inits ts = some fr) :
    fr.hFinal.length = x.length / (ts * (x.length / hx.length)) ∧
    fr.cFinal.length = x.length / (ts * (x.length / hx.length)) := by
  obtain ⟨hck, rfl⟩ := forwardRun_eq_some hf
  obtain ⟨-, -, h3, h4, -⟩ := forwardCore_shapes cell mode hck
  obtain ⟨hms, hts, hbspos, hbs2pos, hxts, hbs, -, -, -⟩ :=
    forward_shape_facts hck
  set L := x.length with hLd
  set ms := L / hx.length with hmsd
  set bs := L / ts with hbsd
  set bs2 := bs / ms with hbs2d
  have hkey : L / (ts * ms) = bs2 := by
    have hx2 : L = (ts * ms) * bs2 := by
      calc L = ts * bs := hxts
        _ = ts * (ms * bs2) := by rw [hbs]
        _ = (ts * ms) * bs2 := by ring
    rw [hx2, Nat.mul_div_cancel_left _ (Nat.mul_pos hts hms)]
  rw [hkey]
  exact ⟨h3, h4⟩

/-- Witness for C6: the spec's end-to-end scenario (`num_units = 2`, one
logical sequence, `multi_sample = 3`, `timesteps = 2`, `inner` mode): the
cached state has exactly 1 row. -/
theorem reduced_final_state_witness :
    forwardRun w6cell MergeMode.inner 2
        [[1, 0], [2, 0], [3, 0], [4, 0], [5, 0], [6, 0]] [[0, 0], [0, 0]]
        [[0, 0], [0, 0]] [1, 0] 2 = some w6fr ∧
    w6fr.hFinal.length = 1 ∧ w6fr.cFinal.length = 1 := by
  refine ⟨rfl, ?_, ?_⟩
  · exact (reduced_final_state w6cell MergeMode.inner 2
      [[1, 0], [2, 0], [3, 0], [4, 0], [5, 0], [6, 0]] [[0, 0], [0, 0]]
      [[0, 0], [0, 0]] [1, 0] 2 w6fr rfl).1
  · exact (reduced_final_state w6cell MergeMode.inner 2
      [[1, 0], [2, 0], [3, 0], [4, 0], [5, 0], [6, 0]] [[0, 0], [0, 0]]
      [[0, 0], [0, 0]] [1, 0] 2 w6fr rfl).2

/-- C8: reducing the `k`-fold interleaved expansion of any state recovers
the state exactly, for every `k ≥ 1` (the mean of `k` identical rows is the
row; exact in ℚ, "up to floating-point tolerance" on floats). -/
theorem expand_reduce_roundtrip (k : ℕ) (m : Mat) (hk : 1 ≤ k) :
    reduceMean k (repeat_interleave k m) = m :=
  reduceMean_repeat_interleave hk m

/-- Witness for C8 at `k = 3` on a concrete two-row state. -/
theorem expand_reduce_roundtrip_witness :
    1 ≤ 3 ∧ reduceMean 3 (repeat_interleave 3 [[(1 : ℚ), 2], [3, 4]])
      = [[(1 : ℚ), 2], [3, 4]] :=
  ⟨by decide, expand_reduce_roundtrip 3 [[(1 : ℚ), 2], [3, 4]] (by decide)⟩

theorem forwardStep_ms_le_one (cell : CellFn) (m1 m2 : MergeMode) {ms : ℕ}
    (hms : ¬ 1 < ms) (ts i : ℕ) (xi : Mat) (ini : Row) (h c : Mat) :
    forwardStep cell m1 ms ts i xi ini h c
      = forwardStep cell m2 ms ts i xi ini h c := by
  simp [forwardStep, hms]

theorem forwardLoop_ms_le_one (cell : CellFn) (m1 m2 : MergeMode) {ms : ℕ}
    (hms : ¬ 1 < ms) (ts : ℕ) :
    ∀ (ps : List (Mat × Row)) (i : ℕ) (h c : Mat),
      forwardLoop cell m1 ms ts i ps h c
        = forwardLoop cell m2 ms ts i ps h c := by
  intro ps
  induction ps with
  | nil =>
    intro i h c
    rfl
  | cons p rest ih =>
    intro i h c
    obtain ⟨xi, ini⟩ := p
    show forwardStep cell m1 ms ts i xi ini h c :: _
      = forwardStep cell m2 ms ts i xi ini h c :: _
    rw [forwardStep_ms_le_one cell m1 m2 hms ts i xi ini h c]
    rw [ih (i + 1) (forwardStep cell m2 ms ts i xi ini h c).hOut
      (forwardStep cell m2 ms ts i xi ini h c).cOut]

theorem forwardCore_ms_le_one (cell : CellFn) (m1 m2 : MergeMode)
    {x hx : Mat} (cx : Mat) (inits : Row) (ts : ℕ)
    (hms : ¬ 1 < x.length / hx.length) :
    forwardCore cell m1 x hx cx inits ts
      = forwardCore cell m2 x hx cx inits ts := by
  simp only [forwardCore]
  rw [forwardLoop_ms_le_one cell m1 m2 hms ts]

/-- C7: with `multi_sample = 1` (input row count equal to state row count),
an `outer`-mode controller and an `inner`-mode controller produce the same
output and the same cached final state. -/
theorem mode_equivalence (u : ℕ) (s : Option (Mat × Mat)) (cell : CellFn)
    (x hx cx : Mat) (inits : Row) (ts : ℕ) (hms : x.length = hx.length) :
    (LSTM.forward ⟨u, MergeMode.outer, s⟩ cell x hx cx inits ts).map
        (fun p => (p.1, p.2.last_state)) =
      (LSTM.forward ⟨u, MergeMode.inner, s⟩ cell x hx cx inits ts).map
        (fun p => (p.1, p.2.last_state)) := by
  show ((forwardRun cell MergeMode.outer u x hx cx inits ts).map _).map _
    = ((forwardRun cell MergeMode.inner u x hx cx inits ts).map _).map _
  unfold forwardRun
  by_cases hc : forwardChecks u x hx cx inits ts = true
  · rw [if_pos hc, if_pos hc]
    obtain ⟨-, -, hhx, -, -, -, -, -, -, -⟩ := forwardChecks_spec hc
    have hms1 : x.length / hx.length = 1 := by
      rw [hms]
      exact Nat.div_self hhx
    rw [forwardCore_ms_le_one cell MergeMode.outer MergeMode.inner cx inits ts
      (by rw [hms1]; omega)]
    simp
  · rw [if_neg hc, if_neg hc]
    rfl

/-- Witness for C7 on a concrete single-timestep single-sample input. -/
theorem mode_equivalence_witness :
    ([[(1 : ℚ)]] : Mat).length = ([[(2 : ℚ)]] : Mat).length ∧
    (LSTM.forward ⟨1, MergeMode.outer, none⟩ w7cell [[1]] [[2]] [[3]]
        [1] 1).map (fun p => (p.1, p.2.last_state)) =
      (LSTM.forward ⟨1, MergeMode.inner, none⟩ w7cell [[1]] [[2]] [[3]]
        [1] 1).map (fun p => (p.1, p.2.last_state)) :=
  ⟨rfl, mode_equivalence 1 none w7cell [[1]] [[2]] [[3]] [1] 1 rfl⟩

/-- C5: `forward` reads the supplied state only through its timestep-0
slice: two calls whose `hx`/`cx` agree on the first
`batch_size / multi_sample` rows (and have the same shape) produce
identical results — output, trace and final cached state — whatever the
remaining rows contain. -/
theorem timestep0_only (cell : CellFn) (mode : MergeMode) (u : ℕ)
    (x : Mat) (hx1 cx1 hx2 cx2 : Mat) (inits : Row) (ts : ℕ)
    (hlh : hx1.length = hx2.length) (hlc : cx1.length = cx2.length)
    (hu1 : ∀ r ∈ hx1, r.length = u) (hu2 : ∀ r ∈ hx2, r.length = u)
    (hv1 : ∀ r ∈ cx1, r.length = u) (hv2 : ∀ r ∈ cx2, r.length = u)
    (hth : hx1.take ((x.length / ts) / (x.length / hx1.length))
      = hx2.take ((x.length / ts) / (x.length / hx1.length)))
    (htc : cx1.take ((x.length / ts) / (x.length / hx1.length))
      = cx2.take ((x.length / ts) / (x.length / hx1.length))) :
    forwardRun cell mode u x hx1 cx1 inits ts
      = forwardRun cell mode u x hx2 cx2 inits ts := by
  have hall1 : hx1.all (fun r => r.length == u) = true :=
    List.all_eq_true.mpr (fun r hr => beq_iff_eq.mpr (hu1 r hr))
  have hall2 : hx2.all (fun r => r.length == u) = true :=
    List.all_eq_true.mpr (fun r hr => beq_iff_eq.mpr (hu2 r hr))
  have hall3 : cx1.all (fun r => r.length == u) = true :=
    List.all_eq_true.mpr (fun r hr => beq_iff_eq.mpr (hv1 r hr))
  have hall4 : cx2.all (fun r => r.length == u) = true :=
    List.all_eq_true.mpr (fun r hr => beq_iff_eq.mpr (hv2 r hr))
  have hcheq : forwardChecks u x hx1 cx1 inits ts
      = forwardChecks u x hx2 cx2 inits ts := by
    unfold forwardChecks
    rw [hall1, hall2, hall3, hall4, hlh, hlc]
  have e1 : x.length / hx1.length = x.length / hx2.length := by rw [hlh]
  have hth' := hth
  have htc' := htc
  rw [e1] at hth' htc'
  unfold forwardRun
  rw [hcheq]
  by_cases hcx : forwardChecks u x hx2 cx2 inits ts = true
  · rw [if_pos hcx, if_pos hcx]
    congr 1
    simp only [forwardCore]
    rw [e1, hth', htc']
  · rw [if_neg hcx, if_neg hcx]

/-- Witness for C5: two-timestep run; the two state inputs differ only in
their second (beyond timestep 0) row. -/
theorem timestep0_only_witness :
    ([[(5 : ℚ)], [6]] : Mat).length = ([[(5 : ℚ)], [9]] : Mat).length ∧
    ([[(7 : ℚ)], [8]] : Mat).length = ([[(7 : ℚ)], [4]] : Mat).length ∧
    (∀ r ∈ ([[(5 : ℚ)], [6]] : Mat), r.length = 1) ∧
    (∀ r ∈ ([[(5 : ℚ)], [9]] : Mat), r.length = 1) ∧
    (∀ r ∈ ([[(7 : ℚ)], [8]] : Mat), r.length = 1) ∧
    (∀ r ∈ ([[(7 : ℚ)], [4]] : Mat), r.length = 1) ∧
    forwardRun w5cell MergeMode.inner 1 [[1], [2]] [[5], [6]] [[7], [8]]
        [1, 0] 2
      = forwardRun w5cell MergeMode.inner 1 [[1], [2]] [[5], [9]] [[7], [4]]
        [1, 0] 2 :=
  ⟨rfl, rfl, by decide, by decide, by decide, by decide,
    timestep0_only w5cell MergeMode.inner 1 [[1], [2]] [[5], [6]] [[7], [8]]
      [[5], [9]] [[7], [4]] [1, 0] 2 rfl rfl (by decide) (by decide)
      (by decide) (by decide) rfl rfl⟩

/-! ### Lemmas about `get_state` -/

theorem boolCast_all_false {l : List Bool} (h : ∀ b ∈ l, b = false) :
    l.map (fun b => if b then (1 : ℚ) else 0) = List.replicate l.length 0 := by
  induction l with
  | nil => rfl
  | cons b bs ih =>
    have hb : b = false := h b (List.mem_cons_self _ _)
    subst hb
    rw [List.map_cons, ih (fun b hb => h b (List.mem_cons_of_mem _ hb)),
      List.length_cons, List.replicate_succ]
    norm_num

theorem boolCast_all_true {l : List Bool} (h : l.all id = true) :
    l.map (fun b => if b then (1 : ℚ) else 0) = List.replicate l.length 1 := by
  induction l with
  | nil => rfl
  | cons b bs ih =>
    simp only [List.all_cons, Bool.and_eq_true, id] at h
    obtain ⟨hb, hbs⟩ := h
    subst hb
    rw [List.map_cons, ih hbs, List.length_cons, List.replicate_succ]
    norm_num

theorem boolCast_getD (l : List Bool) (j : ℕ) :
    (l.map (fun b => if b then (1 : ℚ) else 0)).getD j 0
      = if l.getD j false then (1 : ℚ) else 0 := by
  induction l generalizing j with
  | nil => simp
  | cons b bs ih =>
    cases j with
    | zero => rfl
    | succ j => simpa using ih j

theorem applyReset_all_zero :
    ∀ (m : Mat) (n : ℕ), m.length ≤ n →
      applyReset (List.replicate n 0) m = m := by
  intro m
  induction m with
  | nil =>
    intro n _
    simp [applyReset]
  | cons r ms ih =>
    intro n hn
    obtain ⟨n', rfl⟩ : ∃ n', n = n' + 1 :=
      ⟨n - 1, by simp only [List.length_cons] at hn; omega⟩
    rw [List.replicate_succ]
    show r.map (fun v => v * (1 - (0 : ℚ)))
      :: applyReset (List.replicate n' 0) ms = r :: ms
    rw [show r.map (fun v => v * (1 - (0 : ℚ))) = r from by simp,
      ih n' (by simp only [List.length_cons] at hn; omega)]

theorem applyReset_zeros :
    ∀ (inits : Row) (n u0 : ℕ), inits.length = n →
      applyReset inits (List.replicate n (List.replicate u0 (0 : ℚ)))
        = List.replicate n (List.replicate u0 0) := by
  intro inits
  induction inits with
  | nil =>
    intro n u0 hlen
    rw [← hlen]
    rfl
  | cons i is ih =>
    intro n u0 hlen
    obtain ⟨n', rfl⟩ : ∃ n', n = n' + 1 :=
      ⟨n - 1, by simp only [List.length_cons] at hlen; omega⟩
    rw [List.replicate_succ]
    show (List.replicate u0 (0 : ℚ)).map (fun v => v * (1 - i))
      :: applyReset is (List.replicate n' (List.replicate u0 0))
      = List.replicate (n' + 1) (List.replicate u0 0)
    rw [List.map_replicate, show (0 : ℚ) * (1 - i) = 0 from by ring,
      ih n' u0 (by simp only [List.length_cons] at hlen; omega),
      List.replicate_succ]

theorem mask_broadcast_getD_one :
    ∀ (inits : Row) (j : ℕ) (r : Row), inits.getD j 0 = 1 →
      ∀ v ∈ (inits.map (fun i => r.map (fun v => v * (1 - i)))).getD j [],
        v = 0 := by
  intro inits
  induction inits with
  | nil =>
    intro j r hj
    simp at hj
  | cons i is ih =>
    intro j r hj
    cases j with
    | zero =>
      simp only [List.getD_cons_zero] at hj
      intro v hv
      simp only [List.map_cons, List.getD_cons_zero, List.mem_map] at hv
      obtain ⟨a, -, rfl⟩ := hv
      rw [hj]
      ring
    | succ j =>
      simp only [List.getD_cons_succ] at hj
      intro v hv
      simp only [List.map_cons, List.getD_cons_succ] at hv
      exact ih j r hj v hv

theorem get_state_seed_of_cached {m : LSTM} {s : Mat × Mat}
    (initials : List Bool) (hlast : m.last_state = some s) :
    get_state_seed m initials = some s := by
  unfold get_state_seed
  rw [hlast]

theorem get_state_seed_of_none {m : LSTM} (initials : List Bool)
    (hlast : m.last_state = none) :
    get_state_seed m initials =
      if initials.all id then
        some (List.replicate initials.length (List.replicate m.num_units 0),
              List.replicate initials.length (List.replicate m.num_units 0))
      else none := by
  unfold get_state_seed
  rw [hlast]

/-- The success path of `get_state`, given the seeded pair and the two
masked states. -/
theorem get_state_eq_some {m : LSTM} {h0 c0 h2 c2 : Mat}
    (initials : List Bool)
    (hseed : get_state_seed m initials = some (h0, c0))
    (hm : npBroadcastMask (initials.map fun b => if b then (1 : ℚ) else 0)
      h0 = some h2)
    (hc : npBroadcastMask (initials.map fun b => if b then (1 : ℚ) else 0)
      c0 = some c2)
    (hl2 : h2.length = initials.length) (hl3 : c2.length = initials.length) :
    m.get_state initials = some
      (⟨h2, c2, initials.map fun b => if b then (1 : ℚ) else 0⟩,
        { m with last_state := some (h2, c2) }) := by
  unfold LSTM.get_state
  rw [hseed]
  dsimp only
  rw [hm, hc]
  dsimp only
  rw [if_pos ⟨hl2, hl3⟩]

/-- Inversion of a successful `get_state`. -/
theorem get_state_some_inv {m : LSTM} {initials : List Bool} {r : StateOut}
    {m' : LSTM} (h : m.get_state initials = some (r, m')) :
    ∃ h0 c0 : Mat,
      get_state_seed m initials = some (h0, c0) ∧
      npBroadcastMask (initials.map fun b => if b then (1 : ℚ) else 0) h0
        = some r.hx ∧
      npBroadcastMask (initials.map fun b => if b then (1 : ℚ) else 0) c0
        = some r.cx ∧
      r.initials = initials.map (fun b => if b then (1 : ℚ) else 0) ∧
      r.hx.length = initials.length ∧ r.cx.length = initials.length ∧
      m' = { m with last_state := some (r.hx, r.cx) } := by
  unfold LSTM.get_state at h
  cases hseed : get_state_seed m initials with
  | none =>
    rw [hseed] at h
    cases h
  | some hc0 =>
    obtain ⟨h0, c0⟩ := hc0
    rw [hseed] at h
    dsimp only at h
    cases hmask : npBroadcastMask
        (initials.map fun b => if b then (1 : ℚ) else 0) h0 with
    | none =>
      rw [hmask] at h
      cases h
    | some h2 =>
      cases hcask : npBroadcastMask
          (initials.map fun b => if b then (1 : ℚ) else 0) c0 with
      | none =>
        rw [hmask, hcask] at h
        cases h
      | some c2 =>
        rw [hmask, hcask] at h
        dsimp only at h
        by_cases hif : h2.length = initials.length ∧
            c2.length = initials.length
        · rw [if_pos hif] at h
          have h' := Option.some_inj.mp h
          have hr : r = ⟨h2, c2,
              initials.map fun b => if b then (1 : ℚ) else 0⟩ :=
            (congrArg Prod.fst h').symm
          have hm' : m' = { m with last_state := some (h2, c2) } :=
            (congrArg Prod.snd h').symm
          subst hr
          subst hm'
          exact ⟨h0, c0, rfl, hmask, hcask, rfl, hif.1, hif.2, rfl⟩
        · rw [if_neg hif] at h
          cases h

theorem npBroadcastMask_eq_len {inits : Row} {m : Mat}
    (h : inits.length = m.length) :
    npBroadcastMask inits m = some (applyReset inits m) := by
  unfold npBroadcastMask
  rw [if_pos h]

theorem npBroadcastMask_getD_one {inits : Row} {m0 h2 : Mat}
    (hmask : npBroadcastMask inits m0 = some h2)
    (hlen : h2.length = inits.length) (j : ℕ) (hj : inits.getD j 0 = 1) :
    ∀ v ∈ h2.getD j [], v = 0 := by
  unfold npBroadcastMask at hmask
  by_cases h1 : inits.length = m0.length
  · rw [if_pos h1] at hmask
    obtain rfl := Option.some_inj.mp hmask
    exact applyReset_getD_one _ _ j hj
  · rw [if_neg h1] at hmask
    by_cases hone : m0.length = 1
    · rw [if_pos hone] at hmask
      obtain rfl := Option.some_inj.mp hmask
      exact mask_broadcast_getD_one _ j _ hj
    · rw [if_neg hone] at hmask
      by_cases h3 : inits.length = 1
      · rw [if_pos h3] at hmask
        obtain rfl := Option.some_inj.mp hmask
        exfalso
        rw [List.length_map] at hlen
        exact h1 hlen.symm
      · rw [if_neg h3] at hmask
        cases hmask

theorem LSTM_set_last_eq {m : LSTM} {s : Option (Mat × Mat)}
    (h : m.last_state = s) :
    ({ m with last_state := s } : LSTM) = m := by
  cases m
  cases h
  rfl

/-- C9: the first-ever `get_state` call fails (the all-initial assertion)
iff some entry of `initials` is false; when all entries are true the cache
is lazily created as zero vectors of shape `[batch_size, num_units]`, the
returned `h` and `c` are those zeros, and the cache keeps them. -/
theorem uninit_get_state (m : LSTM) (initials : List Bool)
    (hnone : m.last_state = none) :
    (m.get_state initials = none ↔ ¬ initials.all id = true) ∧
    (initials.all id = true →
      m.get_state initials = some
        (⟨zeroState initials.length m.num_units,
          zeroState initials.length m.num_units,
          List.replicate initials.length 1⟩,
          { m with last_state := some (zeroState initials.length m.num_units,
              zeroState initials.length m.num_units) })) := by
  have hpos : initials.all id = true →
      m.get_state initials = some
        (⟨zeroState initials.length m.num_units,
          zeroState initials.length m.num_units,
          List.replicate initials.length 1⟩,
          { m with last_state := some (zeroState initials.length m.num_units,
              zeroState initials.length m.num_units) }) := by
    intro hall
    have hseed : get_state_seed m initials = some
        (zeroState initials.length m.num_units,
          zeroState initials.length m.num_units) := by
      rw [get_state_seed_of_none initials hnone, if_pos hall]
      rfl
    have hcast : initials.map (fun b => if b then (1 : ℚ) else 0)
        = List.replicate initials.length 1 := boolCast_all_true hall
    have hmask : npBroadcastMask
        (initials.map fun b => if b then (1 : ℚ) else 0)
        (zeroState initials.length m.num_units)
        = some (zeroState initials.length m.num_units) := by
      rw [npBroadcastMask_eq_len (by simp [zeroState])]
      unfold zeroState
      rw [applyReset_zeros _ _ _ (by simp)]
    rw [← hcast]
    exact get_state_eq_some initials hseed hmask hmask
      (by simp [zeroState]) (by simp [zeroState])
  refine ⟨⟨?_, ?_⟩, hpos⟩
  · intro hno hall
    rw [hpos hall] at hno
    cases hno
  · intro hnall
    unfold LSTM.get_state
    rw [get_state_seed_of_none initials hnone, if_neg hnall]

/-- Witness for C9 on a fresh two-unit controller with two all-true
initials. -/
theorem uninit_get_state_witness :
    w9m.last_state = none ∧
    ((w9m.get_state [true, true] = none ↔ ¬ [true, true].all id = true) ∧
      ([true, true].all id = true →
        w9m.get_state [true, true] = some
          (⟨zeroState 2 2, zeroState 2 2, List.replicate 2 1⟩,
            { w9m with last_state := some (zeroState 2 2, zeroState 2 2) }))) :=
  ⟨rfl, uninit_get_state w9m [true, true] rfl⟩

/-- C10: every successful `get_state` returns matrices with exactly
`len initials` rows, returns exactly the pair it stores in the cache,
zeroes the rows flagged initial in that stored state, and a later
`get_state` with all-false initials of the same batch size returns the
same matrices unchanged. -/
theorem get_state_post (m : LSTM) (initials : List Bool) (r : StateOut)
    (m' : LSTM) (h : m.get_state initials = some (r, m')) :
    r.hx.length = initials.length ∧ r.cx.length = initials.length ∧
    m'.last_state = some (r.hx, r.cx) ∧
    (∀ j : ℕ, initials.getD j false = true →
      (∀ v ∈ r.hx.getD j [], v = 0) ∧ (∀ v ∈ r.cx.getD j [], v = 0)) ∧
    (∀ inits2 : List Bool, (∀ b ∈ inits2, b = false) →
      inits2.length = initials.length →
      m'.get_state inits2 =
        some (⟨r.hx, r.cx, List.replicate inits2.length 0⟩, m')) := by
  obtain ⟨h0, c0, hseed, hmask, hcask, hri, hl1, hl2, hm'⟩ :=
    get_state_some_inv h
  have hlastm' : m'.last_state = some (r.hx, r.cx) := by
    rw [hm']
  refine ⟨hl1, hl2, hlastm', ?_, ?_⟩
  · intro j hj
    have hj' : (initials.map fun b => if b then (1 : ℚ) else 0).getD j 0
        = 1 := by
      rw [boolCast_getD, if_pos hj]
    exact ⟨npBroadcastMask_getD_one hmask
        (by rw [hl1, List.length_map]) j hj',
      npBroadcastMask_getD_one hcask
        (by rw [hl2, List.length_map]) j hj'⟩
  · intro inits2 hall hlen2
    have hseed2 : get_state_seed m' inits2 = some (r.hx, r.cx) :=
      get_state_seed_of_cached inits2 hlastm'
    have hcast2 : inits2.map (fun b => if b then (1 : ℚ) else 0)
        = List.replicate inits2.length 0 := boolCast_all_false hall
    have hmask2 : npBroadcastMask
        (inits2.map fun b => if b then (1 : ℚ) else 0) r.hx
        = some r.hx := by
      rw [hcast2, npBroadcastMask_eq_len
        (by rw [List.length_replicate, hlen2, hl1])]
      rw [applyReset_all_zero _ _ (le_of_eq (by rw [hl1, hlen2]))]
    have hcask2 : npBroadcastMask
        (inits2.map fun b => if b then (1 : ℚ) else 0) r.cx
        = some r.cx := by
      rw [hcast2, npBroadcastMask_eq_len
        (by rw [List.length_replicate, hlen2, hl2])]
      rw [applyReset_all_zero _ _ (le_of_eq (by rw [hl2, hlen2]))]
    have hres := get_state_eq_some inits2 hseed2 hmask2 hcask2
      (by rw [hl1, hlen2]) (by rw [hl2, hlen2])
    rw [hcast2, LSTM_set_last_eq hlastm'] at hres
    exact hres

/-- Witness for C10: a cached one-row state queried with a single all-true
initials vector. -/
theorem get_state_post_witness :
    w10m.get_state [true] = some (w10r, w10m') ∧
    (w10r.hx.length = 1 ∧ w10r.cx.length = 1 ∧
      w10m'.last_state = some (w10r.hx, w10r.cx) ∧
      (∀ j : ℕ, ([true] : List Bool).getD j false = true →
        (∀ v ∈ w10r.hx.getD j [], v = 0) ∧
        (∀ v ∈ w10r.cx.getD j [], v = 0)) ∧
      (∀ inits2 : List Bool, (∀ b ∈ inits2, b = false) →
        inits2.length = 1 →
        w10m'.get_state inits2 =
          some (⟨w10r.hx, w10r.cx, List.replicate inits2.length 0⟩,
            w10m'))) :=
  ⟨rfl, get_state_post w10m [true] w10r w10m' rfl⟩

/-- C4: after a `forward` call with `timesteps = 1` and
`multi_sample = 1`, a `get_state` with all-false initials of the matching
batch size returns exactly the `(h, c)` pair cached by that run. -/
theorem state_persistence (m : LSTM) (cell : CellFn) (x hx cx : Mat)
    (inits : Row) (out : Mat) (m' : LSTM) (inits2 : List Bool) (h c : Mat)
    (hms : x.length = hx.length)
    (hr : m.forward cell x hx cx inits 1 = some (out, m'))
    (hlast : m'.last_state = some (h, c))
    (hall : ∀ b ∈ inits2, b = false)
    (hlen : inits2.length = x.length) :
    m'.get_state inits2
      = some (⟨h, c, List.replicate inits2.length 0⟩, m') := by
  unfold LSTM.forward at hr
  obtain ⟨fr, hfr, hout⟩ := Option.map_eq_some'.mp hr
  have hm' : m' = { m with last_state := some (fr.hFinal, fr.cFinal) } :=
    (congrArg Prod.snd hout).symm
  have hlast2 : m'.last_state = some (fr.hFinal, fr.cFinal) := by
    rw [hm']
  have hhc : h = fr.hFinal ∧ c = fr.cFinal := by
    rw [hlast2] at hlast
    have := Option.some_inj.mp hlast
    exact ⟨(congrArg Prod.fst this).symm, (congrArg Prod.snd this).symm⟩
  obtain ⟨hck, hfr2⟩ := forwardRun_eq_some hfr
  obtain ⟨-, -, hhx, -, -, -, -, -, -, -⟩ := forwardChecks_spec hck
  have hms1 : x.length / hx.length = 1 := by
    rw [hms]
    exact Nat.div_self hhx
  have hbs2 : (x.length / 1) / (x.length / hx.length) = x.length := by
    rw [hms1, Nat.div_one, Nat.div_one]
  obtain ⟨-, -, hfl, hcl, -⟩ :=
    forwardCore_shapes cell m.multi_sample_merge_mode hck
  rw [← hfr2] at hfl hcl
  rw [hbs2] at hfl hcl
  have hlh : h.length = inits2.length := by
    rw [hhc.1, hfl, hlen]
  have hlc : c.length = inits2.length := by
    rw [hhc.2, hcl, hlen]
  have hseed2 : get_state_seed m' inits2 = some (h, c) :=
    get_state_seed_of_cached inits2 hlast
  have hcast2 : inits2.map (fun b => if b then (1 : ℚ) else 0)
      = List.replicate inits2.length 0 := boolCast_all_false hall
  have hmask2 : npBroadcastMask
      (inits2.map fun b => if b then (1 : ℚ) else 0) h = some h := by
    rw [hcast2, npBroadcastMask_eq_len (by rw [List.length_replicate, hlh])]
    rw [applyReset_all_zero _ _ (le_of_eq hlh)]
  have hcask2 : npBroadcastMask
      (inits2.map fun b => if b then (1 : ℚ) else 0) c = some c := by
    rw [hcast2, npBroadcastMask_eq_len (by rw [List.length_replicate, hlc])]
    rw [applyReset_all_zero _ _ (le_of_eq hlc)]
  have hres := get_state_eq_some inits2 hseed2 hmask2 hcask2 hlh hlc
  rw [hcast2, LSTM_set_last_eq hlast] at hres
  exact hres

/-- Witness for C4: a one-timestep, single-sample run followed by an
all-false `get_state`. -/
theorem state_persistence_witness :
    ([[(1 : ℚ)]] : Mat).length = ([[(0 : ℚ)]] : Mat).length ∧
    w4m.forward w4cell [[1]] [[0]] [[0]] [1] 1
      = some (((w4m.forward w4cell [[1]] [[0]] [[0]] [1] 1).getD
          ([], w4m)).1, w4m') ∧
    w4m'.last_state = some (w4h, w4c) ∧
    (∀ b ∈ ([false] : List Bool), b = false) ∧
    ([false] : List Bool).length = ([[(1 : ℚ)]] : Mat).length ∧
    w4m'.get_state [false]
      = some (⟨w4h, w4c, List.replicate 1 0⟩, w4m') :=
  ⟨rfl, rfl, rfl, by decide, rfl,
    state_persistence w4m w4cell [[1]] [[0]] [[0]] [1]
      ((w4m.forward w4cell [[1]] [[0]] [[0]] [1] 1).getD ([], w4m)).1
      w4m' [false] w4h w4c rfl rfl rfl (by decide) rfl⟩
